import Mathlib

/-!
Verification development for the LIF core (`lif-core`).

Shallow embedding of:
* `components/lif/string_utils/core.py` (casing helpers),
* `components/lif/dynamic_models/core.py` (`make_enum`, `build_dynamic_model`),
* `components/lif/graphql/utils.py` (`unique_type_name`, `serialize_for_json`,
  `get_selected_field_paths`),
* `components/lif/graphql/core.py` (`pydantic_inputs_to_dict`),
* `components/lif/schema/core.py` (`extract_nodes`).

Python strings are modelled as Lean `String` over their character lists
(the inputs of interest are ASCII identifiers); Python dicts as ordered
association lists with in-place update; Python exceptions as `Except String`.
-/

namespace LifCore

/-! ## Python string primitives -/

/-- Python `str.capitalize()`: first character upper-cased, all remaining
characters lower-cased. -/
def pyCapitalize (s : String) : String :=
  match s.data with
  | [] => ""
  | c :: cs => String.mk (c.toUpper :: cs.map Char.toLower)

/-- Python `s[:1].upper() + s[1:]` (as used on the suffix in
`unique_type_name`): only the first character is upper-cased, the rest is kept
unchanged. -/
def capFirst (s : String) : String :=
  match s.data with
  | [] => ""
  | c :: cs => String.mk (c.toUpper :: cs)

/-- Python `str.strip()`: drop leading and trailing whitespace. -/
def pyStrip (s : String) : String :=
  String.mk (((s.data.dropWhile Char.isWhitespace).reverse.dropWhile
    Char.isWhitespace).reverse)

/-- Python `str.lower()` (ASCII domain). -/
def pyLower (s : String) : String :=
  String.mk (s.data.map Char.toLower)

/-- Python `s.split(".")` (kernel-reducible replacement for `String.splitOn`):
tokens between single dots, keeping empty tokens, `""` giving `[""]`. -/
def pySplitDotsAux : List Char → List Char → List String
  | [], acc => [String.mk acc.reverse]
  | c :: cs, acc =>
    if c = '.' then String.mk acc.reverse :: pySplitDotsAux cs []
    else pySplitDotsAux cs (c :: acc)

/-- Python `s.split(".")`. -/
def pySplitDots (s : String) : List String :=
  pySplitDotsAux s.data []

/-- Python `s.endswith(t)`. -/
def pyEndsWith (s t : String) : Bool :=
  t.data.isSuffixOf s.data

/-- A regex word character, `[A-Za-z0-9_]` (the complement of `\W`). -/
def isWordChar (c : Char) : Bool :=
  c.isAlphanum || c = '_'

/-- Separator class `[_\-\s]` used by `string_utils.to_pascal_case` and
`to_camel_case`. -/
def isSep (c : Char) : Bool :=
  c = '_' || c = '-' || c.isWhitespace

/-- Dropping a prefix never lengthens a list (termination helper for the
regex scanners below). -/
theorem dropWhile_length_le (p : α → Bool) (l : List α) :
    (l.dropWhile p).length ≤ l.length := by
  induction l with
  | nil => simp
  | cons a l ih =>
    by_cases h : p a <;> simp [List.dropWhile_cons, h] <;> omega

/-- Python `re.split` with a `<sep>+` pattern: tokens between maximal separator
runs, keeping the empty tokens that arise at the ends (e.g. splitting `".a."`
on `\W+` gives `["", "a", ""]`).  `acc` holds the current token reversed. -/
def pySplitRuns (sep : Char → Bool) : List Char → List Char → List String
  | [], acc => [String.mk acc.reverse]
  | c :: cs, acc =>
    if sep c then
      String.mk acc.reverse :: pySplitRuns sep (cs.dropWhile sep) []
    else
      pySplitRuns sep cs (c :: acc)
termination_by cs _ => cs.length
decreasing_by
  · exact Nat.lt_succ_of_le (dropWhile_length_le sep cs)
  · exact Nat.lt_succ_self _

/-- `re.split(r"\W+", name)` from `unique_type_name`. -/
def splitNonWord (s : String) : List String :=
  pySplitRuns (fun c => !isWordChar c) s.data []

/-- Python `str.isupper()` on an ASCII token: at least one cased (alphabetic)
character and no lower-case character. -/
def pyIsUpper (w : String) : Bool :=
  w.data.any Char.isAlpha && w.data.all (fun c => !c.isLower)

/-! ## `string_utils.core.to_pascal_case` / `to_camel_case` -/

/-- First substitution of `string_utils.to_pascal_case`:
`re.sub(r"(.)([A-Z][a-z]+)", r"\1_\2", s)`.  `.` matches any character except
newline; the `[a-z]+` run is taken greedily and scanning resumes after the
match (non-overlapping matches). -/
def sub1 : List Char → List Char
  | c₁ :: c₂ :: c₃ :: rest =>
    if c₁ ≠ '\n' ∧ c₂.isUpper ∧ c₃.isLower then
      let lowers := (c₃ :: rest).takeWhile Char.isLower
      let rest' := (c₃ :: rest).dropWhile Char.isLower
      c₁ :: '_' :: c₂ :: (lowers ++ sub1 rest')
    else
      c₁ :: sub1 (c₂ :: c₃ :: rest)
  | l => l
termination_by l => l.length
decreasing_by
  · calc ((c₃ :: rest).dropWhile Char.isLower).length
        ≤ (c₃ :: rest).length := dropWhile_length_le _ _
      _ < (c₁ :: c₂ :: c₃ :: rest).length := by simp
  · simp

/-- Second substitution of `string_utils.to_pascal_case`:
`re.sub(r"([a-z0-9])([A-Z])", r"\1_\2", s)`; scanning resumes after each
two-character match. -/
def sub2 : List Char → List Char
  | a :: b :: rest =>
    if (a.isLower || a.isDigit) && b.isUpper then
      a :: '_' :: b :: sub2 rest
    else
      a :: sub2 (b :: rest)
  | l => l
termination_by l => l.length

/-- `string_utils.core.to_pascal_case` applied to a single string (every call
site in `dynamic_models/core.py` passes exactly one argument; the variadic
function concatenates the per-argument results, and an empty argument
contributes nothing). -/
def toPascalCase (part : String) : String :=
  if part = "" then ""
  else
    let words := pySplitRuns isSep (sub2 (sub1 (pyStrip part).data)) []
    String.join (words.filterMap fun w =>
      if w = "" then none
      else some (if pyIsUpper w then w else pyCapitalize w))

/-- Scanner core of `string_utils.core.to_camel_case`:
`re.sub(r"([_\-\s]+)([a-zA-Z])", lambda m: m.group(2).upper(), s)`.
A maximal separator run immediately followed by a letter is replaced by the
upper-cased letter; a separator run not followed by a letter is kept (regex
backtracking cannot rescue it, since a shorter run is followed by another
separator). -/
def toCamelCaseAux : List Char → List Char
  | [] => []
  | c :: rest =>
    if hsep : isSep c then
      match hd : (c :: rest).dropWhile isSep with
      | d :: ds =>
        if d.isAlpha then d.toUpper :: toCamelCaseAux ds
        else ((c :: rest).takeWhile isSep) ++ toCamelCaseAux (d :: ds)
      | [] => (c :: rest).takeWhile isSep
    else
      c :: toCamelCaseAux rest
termination_by l => l.length
decreasing_by
  · have h : ((c :: cs).dropWhile isSep).length ≤ cs.length := by
      simpa [List.dropWhile_cons, hsep] using dropWhile_length_le isSep cs
    rw [hd] at h
    simp at h ⊢
    omega
  · have h : ((c :: cs).dropWhile isSep).length ≤ cs.length := by
      simpa [List.dropWhile_cons, hsep] using dropWhile_length_le isSep cs
    rw [hd] at h
    simp at h ⊢
    omega
  · simp

/-- `string_utils.core.to_camel_case`. -/
def toCamelCase (s : String) : String :=
  match toCamelCaseAux s.data with
  | [] => ""
  | c :: cs => String.mk (c.toLower :: cs)

/-- `string_utils.core.camelcase_path`: camel-case every dot-separated
segment. -/
def camelcasePath (path : String) : String :=
  String.intercalate "." ((pySplitDots path).map toCamelCase)

/-- Python `path_prefix.rstrip(".")`. -/
def rstripDots (s : String) : String :=
  String.mk ((s.data.reverse.dropWhile (· = '.')).reverse)

/-! ## `graphql.utils` casing helpers -/

/-- Token scanner of `graphql.utils.to_pascal_case_from_str`:
`re.findall(r"[A-Za-z][a-z]*|[A-Z]+(?![a-z])", s)`.  The first alternative
matches at every letter, so the second alternative is unreachable; each token
is a letter followed by the maximal run of lower-case letters. -/
def pascalTokens : List Char → List String
  | [] => []
  | c :: cs =>
    if c.isAlpha then
      String.mk (c :: cs.takeWhile Char.isLower) :: pascalTokens (cs.dropWhile Char.isLower)
    else
      pascalTokens cs
termination_by l => l.length
decreasing_by
  · exact Nat.lt_succ_of_le (dropWhile_length_le _ _)
  · exact Nat.lt_succ_self _

/-- `graphql.utils.to_pascal_case_from_str`: replace `-` and `_` by spaces,
tokenise, and join the capitalized tokens. -/
def pascalFromStr (s : String) : String :=
  let replaced := s.data.map fun c => if c = '-' ∨ c = '_' then ' ' else c
  String.join ((pascalTokens replaced).map pyCapitalize)

/-- `graphql.utils.to_pascal_case` (the list-joining variant): join the
capitalized non-empty parts. -/
def toPascalParts (parts : List String) : String :=
  String.join (parts.filterMap fun p =>
    if p = "" then none else some (pyCapitalize p))

/-- `graphql.utils.unique_type_name`: split the name on non-word characters,
strip a leading segment whose PascalCase form equals the PascalCase root, fall
back to the root when nothing remains, and append the suffix with its first
letter upper-cased. -/
def uniqueTypeName (name suffix rootNode : String) : String :=
  let parts := splitNonWord name
  let root := pascalFromStr rootNode
  let parts :=
    match parts with
    | p :: rest => if pascalFromStr p = root then rest else parts
    | [] => parts
  let parts := if parts = [] then [root] else parts
  toPascalParts parts ++ capFirst suffix

/-! ## Schema fields and attribute values -/

/-- An attribute value as stored in `SchemaField.attributes`.  The values the
extractor (`schema/core.py`) actually stores are JSON booleans, strings,
integers, string lists (enum literal lists) and `None`. -/
inductive AttrVal : Type where
  | b (v : Bool)
  | s (v : String)
  | i (v : Int)
  | lst (v : List String)
  | nil
  deriving DecidableEq, Repr

/-- Python truthiness of an attribute value. -/
def AttrVal.truthy : AttrVal → Bool
  | .b v => v
  | .s v => v ≠ ""
  | .i v => v ≠ 0
  | .lst v => v ≠ []
  | .nil => false

/-- Python `str(value)` on an attribute value (`repr` for list elements, as
Python renders lists). -/
def AttrVal.pyStr : AttrVal → String
  | .b true => "True"
  | .b false => "False"
  | .s v => v
  | .i v => toString v
  | .lst v =>
    "[" ++ String.intercalate ", " (v.map fun x => "'" ++ x ++ "'") ++ "]"
  | .nil => "None"

/-- `lif.datatypes.schema.SchemaField` (the `py_field_name` default is never
read by the code under verification). -/
structure SchemaField : Type where
  json_path : String
  description : String
  attributes : List (String × AttrVal)
  deriving DecidableEq, Repr

/-- Python `sf.attributes.get(key)`: first binding of the key. -/
def attrLookup : List (String × AttrVal) → String → Option AttrVal
  | [], _ => none
  | (k', v) :: rest, k => if k' = k then some v else attrLookup rest k

/-- Python `sf.attributes.get(key)`. -/
def SchemaField.attrGet (sf : SchemaField) (key : String) : Option AttrVal :=
  attrLookup sf.attributes key

/-- Python `sf.attributes.get(key, default)`. -/
def SchemaField.attrGetD (sf : SchemaField) (key : String) (d : AttrVal) : AttrVal :=
  (sf.attrGet key).getD d

/-- `dynamic_models.core._is_yes`: `str(value).strip().lower()` is one of
`yes`, `true`, `1`. -/
def isYes (v : AttrVal) : Bool :=
  let s := pyLower (pyStrip v.pyStr)
  s = "yes" || s = "true" || s = "1"

/-! ## `make_enum` and the enum class cache

A synthesized `Enum` type object is identified by the `Nat` id allocated when
it was first created; reference equality of the returned Python type objects
is equality of ids.  The process-wide `_ENUM_CLASS_CACHE` is the ordered
mapping from cache key to id. -/

/-- Lexicographic comparison of character lists by code point — Python's
string ordering. -/
def charListLe : List Char → List Char → Bool
  | [], _ => true
  | _ :: _, [] => false
  | c :: cs, d :: ds =>
    if c < d then true else if d < c then false else charListLe cs ds

/-- Python `a <= b` on strings. -/
def pyLe (a b : String) : Prop := charListLe a.data b.data = true

instance : DecidableRel pyLe := fun _ _ => instDecidableEqBool _ _

theorem charListLe_total : ∀ as bs : List Char,
    charListLe as bs = true ∨ charListLe bs as = true := by
  intro as
  induction as with
  | nil => intro bs; left; rfl
  | cons c cs ih =>
    intro bs
    cases bs with
    | nil => right; rfl
    | cons d ds =>
      rcases lt_trichotomy c d with h | h | h
      · left
        simp [charListLe, h]
      · subst h
        rcases ih ds with h' | h'
        · left
          simpa [charListLe] using h'
        · right
          simpa [charListLe] using h'
      · right
        simp [charListLe, h]

theorem charListLe_cons (a b : Char) (as bs : List Char) :
    charListLe (a :: as) (b :: bs)
      = if a < b then true else if b < a then false else charListLe as bs :=
  rfl

theorem charListLe_trans : ∀ as bs cs : List Char,
    charListLe as bs = true → charListLe bs cs = true →
    charListLe as cs = true := by
  intro as
  induction as with
  | nil => intro bs cs _ _; rfl
  | cons a as ih =>
    intro bs cs h1 h2
    cases bs with
    | nil => simp [charListLe] at h1
    | cons b bs =>
      cases cs with
      | nil => simp [charListLe] at h2
      | cons c cs =>
        rw [charListLe_cons] at h1 h2 ⊢
        rcases lt_trichotomy a b with hab | hab | hab
        · rcases lt_trichotomy b c with hbc | hbc | hbc
          · rw [if_pos (lt_trans hab hbc)]
          · subst hbc
            rw [if_pos hab]
          · rw [if_neg (asymm hbc), if_pos hbc] at h2
            exact absurd h2 (by simp)
        · subst hab
          rcases lt_trichotomy a c with hbc | hbc | hbc
          · rw [if_pos hbc]
          · subst hbc
            rw [if_neg (lt_irrefl a), if_neg (lt_irrefl a)] at h1 h2 ⊢
            exact ih _ _ h1 h2
          · rw [if_neg (asymm hbc), if_pos hbc] at h2
            exact absurd h2 (by simp)
        · rw [if_neg (asymm hab), if_pos hab] at h1
          exact absurd h1 (by simp)

theorem charListLe_antisymm : ∀ as bs : List Char,
    charListLe as bs = true → charListLe bs as = true → as = bs := by
  intro as
  induction as with
  | nil =>
    intro bs h1 h2
    cases bs with
    | nil => rfl
    | cons b bs => simp [charListLe] at h2
  | cons a as ih =>
    intro bs h1 h2
    cases bs with
    | nil => simp [charListLe] at h1
    | cons b bs =>
      rcases lt_trichotomy a b with hab | hab | hab
      · simp [charListLe, hab, asymm hab] at h2
      · subst hab
        simp [charListLe, lt_irrefl] at h1 h2
        rw [ih _ h1 h2]
      · simp [charListLe, hab, asymm hab] at h1

instance : IsTotal String pyLe :=
  ⟨fun a b => charListLe_total a.data b.data⟩

instance : IsTrans String pyLe :=
  ⟨fun a b c => charListLe_trans a.data b.data c.data⟩

instance : IsAntisymm String pyLe :=
  ⟨fun a b h1 h2 => by
    cases a
    cases b
    exact congrArg String.mk (charListLe_antisymm _ _ h1 h2)⟩

/-- Python `sorted(values)` for string values (lexicographic by code point):
the sorted permutation, which is unique, here computed by insertion sort. -/
def pySortedStrings (vs : List String) : List String :=
  vs.insertionSort pyLe

/-- The cache key of `make_enum`:
`f"{name}_{'_'.join(map(str, sorted(values)))}"`. -/
def makeEnumKey (name : String) (values : List String) : String :=
  name ++ "_" ++ String.intercalate "_" (pySortedStrings values)

/-- The enum cache: key-to-type-object mapping plus a fresh-id counter. -/
structure EnumState : Type where
  cache : List (String × Nat)
  nextId : Nat
  deriving DecidableEq, Repr

/-- The empty cache of a fresh process. -/
def EnumState.empty : EnumState := ⟨[], 0⟩

/-- First binding of a key in an association list (Python `dict` lookup,
keys being unique). -/
def assocGet : List (String × α) → String → Option α
  | [], _ => none
  | (k', v) :: rest, k => if k' = k then some v else assocGet rest k

/-- `dynamic_models.core.make_enum`: return the cached type object for the
cache key, or allocate a fresh one and cache it. -/
def makeEnum (name : String) (values : List String) (st : EnumState) :
    Nat × EnumState :=
  let key := makeEnumKey name values
  match assocGet st.cache key with
  | some id => (id, st)
  | none => (st.nextId, ⟨st.cache ++ [(key, st.nextId)], st.nextId + 1⟩)

/-- Well-formedness of the enum cache: all cached ids are distinct and below
the fresh-id counter.  Holds for the empty cache and is preserved by
`makeEnum`. -/
structure EnumState.WF (st : EnumState) : Prop where
  nodup : (st.cache.map Prod.snd).Nodup
  lt : ∀ p ∈ st.cache, p.2 < st.nextId

/-! ## Compiled record types

`build_dynamic_model` creates Python classes at runtime.  A compiled type
annotation is modelled structurally; `Optional[·]` mirrors Python `typing`
semantics where `Optional[Optional[X]]` collapses to `Optional[X]`.  An enum
annotation is identified by its cache key: by the `make_enum` cache, two enum
annotations are the same type object exactly when their cache keys agree. -/

mutual
inductive PyType : Type where
  | pstr | pfloat | pint | pbool | pdate | pdatetime
  | enumT (cacheKey : String)
  | plist (t : PyType)
  | popt (t : PyType)
  | pmodel (m : PyModel)

/-- A dynamically created Pydantic model class: class name, ordered fields,
`extra` policy, and docstring. -/
inductive PyModel : Type where
  | mk (className : String) (fields : List PyField) (allowExtra : Bool)
      (doc : String)

/-- One annotated field: name, annotation, whether a default (`None`) was
installed, and the `Field(description=...)` text (empty when absent). -/
inductive PyField : Type where
  | mk (name : String) (ty : PyType) (hasDefault : Bool) (descr : String)
end

def PyModel.className : PyModel → String
  | .mk n _ _ _ => n

def PyModel.fields : PyModel → List PyField
  | .mk _ fs _ _ => fs

def PyModel.allowExtra : PyModel → Bool
  | .mk _ _ e _ => e

def PyField.name : PyField → String
  | .mk n _ _ _ => n

def PyField.ty : PyField → PyType
  | .mk _ t _ _ => t

def PyField.hasDefault : PyField → Bool
  | .mk _ _ d _ => d

/-- Python `typing.Optional[t]`: `Optional[Union[X, None]]` flattens to
`Union[X, None]`, so wrapping an already-optional annotation is the
identity. -/
def mkOptional : PyType → PyType
  | .popt t => .popt t
  | t => .popt t

/-- `DATATYPE_MAP.get(d, str)` from `dynamic_models/core.py`. -/
def datatypeMap (d : String) : PyType :=
  if d = "xsd:string" then .pstr
  else if d = "xsd:decimal" then .pfloat
  else if d = "xsd:integer" then .pint
  else if d = "xsd:boolean" then .pbool
  else if d = "xsd:date" then .pdate
  else if d = "xsd:dateTime" then .pdatetime
  else if d = "xsd:datetime" then .pdatetime
  else if d = "xsd:anyURI" then .pstr
  else .pstr

/-! ## Python dict as an ordered association list -/

/-- Python `d[k] = v` on a dict: overwrite in place when the key exists,
append otherwise. -/
def dictInsert (d : List (String × α)) (k : String) (v : α) :
    List (String × α) :=
  match d with
  | [] => [(k, v)]
  | (k', v') :: rest =>
    if k' = k then (k, v) :: rest else (k', v') :: dictInsert rest k v

/-- Keyed lookup by full path, for `leaf_by_path` (keys are path tuples). -/
def pathGet : List (List String × SchemaField) → List String →
    Option SchemaField
  | [], _ => none
  | (k', v) :: rest, k => if k' = k then some v else pathGet rest k

/-- `leaf_by_path[tuple(parts)] = sf`. -/
def pathInsert (d : List (List String × SchemaField)) (k : List String)
    (v : SchemaField) : List (List String × SchemaField) :=
  match d with
  | [] => [(k, v)]
  | (k', v') :: rest =>
    if k' = k then (k, v) :: rest else (k', v') :: pathInsert rest k v

/-! ## The path tree of `build_dynamic_model` -/

/-- The nested-`dict` tree rebuilt from the dotted paths; children are kept
in insertion order like a Python dict. -/
inductive Tree : Type where
  | node (children : List (String × Tree))

def Tree.children : Tree → List (String × Tree)
  | .node cs => cs

/-- One iteration of `node.setdefault(part, {})` chained along the path:
insert every missing segment, leave existing subtrees in place. -/
def treeInsert (children : List (String × Tree)) : List String →
    List (String × Tree)
  | [] => children
  | p :: rest =>
    let oldSub :=
      match assocGet children p with
      | some t => t.children
      | none => []
    dictInsert children p (.node (treeInsert oldSub rest))

/-- Whether a field participates in the compile pass:
`if attribute_flag and not sf.attributes.get(attribute_flag, False)` skips the
field (an empty-string flag is falsy, like `None`). -/
def participating (flag : Option String) (sf : SchemaField) : Bool :=
  match flag with
  | none => true
  | some f =>
    if f = "" then true else (sf.attrGetD f (.b false)).truthy

/-- The `{attribute_flag or 'selected'}` fragment of the multiple-roots error
message. -/
def flagName (flag : Option String) : String :=
  match flag with
  | none => "selected"
  | some f => if f = "" then "selected" else f

/-! ## `build_dynamic_model` -/

/-- The parameters of one `build_dynamic_model` invocation, as captured by the
closures `_field_type`, `_wrap_root`, `strip_root` and `_build_model`. -/
structure BuildCtx : Type where
  rootName : String
  modelSuffix : String
  modelDoc : String
  allowExtra : Bool
  allOptional : Bool
  leafMap : List (List String × SchemaField)

/-- The literal list behind an `enum` attribute (the extractor stores the raw
JSON list of literals; the code under test only ever feeds string lists to
`make_enum`). -/
def enumValues : AttrVal → List String
  | .lst vs => vs
  | _ => []

/-- The non-enum scalar resolution of `_field_type`:
`DATATYPE_MAP.get(sf.attributes.get("dataType", "xsd:string"), str)` (a
non-string attribute value misses the map and falls back to `str`). -/
def scalarType (sf : SchemaField) : PyType :=
  match sf.attrGetD "dataType" (.s "xsd:string") with
  | .s d => datatypeMap d
  | _ => .pstr

/-- `_field_type`: enum attribute (type identity is its `make_enum` cache key
for `name.capitalize()` and the literals), else the scalar from
`DATATYPE_MAP`, wrapped in `List[·]` under an `array=Yes` attribute and in
`Optional[·]` under `all_optional`. -/
def fieldType (ctx : BuildCtx) (sf : SchemaField) (name : String) : PyType :=
  let base :=
    match sf.attrGet "enum" with
    | some v => PyType.enumT (makeEnumKey (pyCapitalize name) (enumValues v))
    | none => scalarType sf
  let base := if isYes (sf.attrGetD "array" (.s "No")) then .plist base else base
  if ctx.allOptional then mkOptional base else base

/-- The leaf annotation of `_build_model`:
`Annotated[Optional[_field_type(sf, to_pascal_case(key))], Field(...)]` under
`all_optional`, else `Annotated[_field_type(sf, to_pascal_case(key)),
Field(...)]`. -/
def leafFieldType (ctx : BuildCtx) (sf : SchemaField) (key : String) : PyType :=
  if ctx.allOptional then mkOptional (fieldType ctx sf (toPascalCase key))
  else fieldType ctx sf (toPascalCase key)

/-- The branch annotation of `_build_model`:
`Optional[List[child]] if is_array else Optional[child]` under `all_optional`,
else `List[child] if is_array else child`. -/
def branchFieldType (allOpt : Bool) (isArr : Bool) (child : PyModel) : PyType :=
  if allOpt then
    if isArr then mkOptional (.plist (.pmodel child))
    else mkOptional (.pmodel child)
  else
    if isArr then .plist (.pmodel child)
    else .pmodel child

/-- `strip_root`: drop the first path segment when it equals the root name
case-insensitively. -/
def stripRoot (ctx : BuildCtx) (parts : List String) : List String :=
  match parts with
  | p :: rest => if pyLower p = pyLower ctx.rootName then rest else parts
  | [] => []

/-- The `class_name` computation of `_build_model`: PascalCase of the
concatenated stripped segments (or of the root name), with the model suffix
appended unless already a suffix. -/
def buildClassName (ctx : BuildCtx) (stripped : List String) : String :=
  let base :=
    if stripped ≠ [] then toPascalCase (String.join stripped)
    else toPascalCase ctx.rootName
  if ctx.modelSuffix ≠ "" ∧ ¬ pyEndsWith base ctx.modelSuffix then
    base ++ ctx.modelSuffix
  else base

/-- The `unique_name` chain of `_build_model`:
`(sf.attributes.get("uniqueName") if sf else None) or ".".join(stripped) or
class_name` (Python `or` falls through falsy values; the extractor stores
string `UniqueName` values). -/
def buildUniqueName (ctx : BuildCtx) (sf? : Option SchemaField)
    (stripped : List String) (className : String) : String :=
  let fromAttr :=
    match sf? with
    | some sf =>
      match sf.attrGet "uniqueName" with
      | some v => if v.truthy then some v.pyStr else none
      | none => none
    | none => none
  match fromAttr with
  | some u => u
  | none =>
    let joined := String.intercalate "." stripped
    if joined ≠ "" then joined else className

/-- `_wrap_root`: the synthetic top-level container; its single field is
`List[inner]` when `is_array` (the caller always passes `True`), with a `None`
default exactly under `all_optional`. -/
def wrapRoot (ctx : BuildCtx) (rootName : String) (inner : PyModel)
    (isArray : Bool) : PyModel :=
  let fieldTy := if isArray then PyType.plist (.pmodel inner) else .pmodel inner
  .mk (pyCapitalize rootName ++ ctx.modelSuffix)
    [.mk rootName fieldTy ctx.allOptional ""]
    ctx.allowExtra
    (if rootName ≠ "" then "Top-level wrapper with `" ++ rootName ++ "` field."
     else "Top-level wrapper.")

mutual
/-- `_build_model` on one subtree: compute the anchoring `SchemaField`, the
class and unique names, collect the field annotations of the children, return
`None` for an empty record, else the class, recording the chronological
`models[unique_name] = cls` insertions (children first, own entry last).
The `name` argument of the Python function is never read and is omitted. -/
def buildModel (ctx : BuildCtx) (subtree : List (String × Tree))
    (path : List String) : Option PyModel × List (String × PyModel) :=
  let sf? := pathGet ctx.leafMap path
  let stripped := stripRoot ctx path
  let className := buildClassName ctx stripped
  let uniqueName := buildUniqueName ctx sf? stripped className
  let r := buildFields ctx subtree path
  if r.1.isEmpty then (none, r.2)
  else
    let m : PyModel :=
      .mk className r.1 ctx.allowExtra
        (ctx.modelDoc ++ " for `" ++ className ++ "`.")
    (some m, r.2 ++ [(uniqueName, m)])
termination_by (sizeOf subtree, 1)

/-- The `for key, child in subtree.items()` loop of `_build_model`: an empty
child dict is a leaf (annotated when a `SchemaField` anchors it), a non-empty
child is a nested model (annotated as list/bare depending on its own `array`
attribute, and skipped when it compiles to `None`). -/
def buildFields (ctx : BuildCtx) : List (String × Tree) → List String →
    List PyField × List (String × PyModel)
  | [], _ => ([], [])
  | (key, Tree.node sub) :: rest, path =>
    let childPath := path ++ [key]
    let leafSf := pathGet ctx.leafMap childPath
    if sub.isEmpty then
      let r := buildFields ctx rest path
      match leafSf with
      | some sf =>
        (.mk key (leafFieldType ctx sf key) ctx.allOptional sf.description
          :: r.1, r.2)
      | none => r
    else
      let isArr :=
        match leafSf with
        | some sf => isYes (sf.attrGetD "array" (.s "No"))
        | none => false
      let c := buildModel ctx sub childPath
      let r := buildFields ctx rest path
      match c.1 with
      | some cm =>
        (.mk key (branchFieldType ctx.allOptional isArr cm) ctx.allOptional ""
          :: r.1, c.2 ++ r.2)
      | none => (r.1, c.2 ++ r.2)
termination_by l _ => (sizeOf l, 0)
end

/-- `build_dynamic_model`: filter the participating fields, rebuild the path
tree and the `leaf_by_path` index, require a unique root, compile the nested
models, and append the root and wrapper entries. -/
def buildDynamicModel (schemaFields : List SchemaField)
    (attributeFlag : Option String := some "xQueryable")
    (modelDoc : String := "Data model") (allowExtra : Bool := false)
    (modelSuffix : String := "") (allOptional : Bool := true) :
    Except String (List (String × PyModel)) :=
  let selected := schemaFields.filter (participating attributeFlag)
  let tree := selected.foldl
    (fun t sf => treeInsert t (pySplitDots sf.json_path)) []
  let leafMap := selected.foldl
    (fun m sf => pathInsert m (pySplitDots sf.json_path) sf) []
  match tree with
  | [] => .ok []
  | [(rootName, rootSub)] =>
    let ctx : BuildCtx :=
      ⟨rootName, modelSuffix, modelDoc, allowExtra, allOptional, leafMap⟩
    match buildModel ctx rootSub.children [rootName] with
    | (none, _) => .ok []
    | (some inner, ins) =>
      let wrapper := wrapRoot ctx rootName inner true
      .ok ((ins ++ [(rootName, inner), (rootName ++ "_wrapper", wrapper)]).foldl
        (fun d kv => dictInsert d kv.1 kv.2) [])
  | _ =>
    .error ("All " ++ flagName attributeFlag ++
      " json_path values must share a common root")

/-! ## `schema.core.extract_nodes` -/

/-- A JSON value of a dereferenced OpenAPI/JSON-Schema document. -/
inductive JVal : Type where
  | jnull
  | jbool (b : Bool)
  | jnum (n : Int)
  | jstr (s : String)
  | jarr (xs : List JVal)
  | jobj (fs : List (String × JVal))

/-- Dict lookup on a JSON object (first binding). -/
def jGet : List (String × JVal) → String → Option JVal
  | [], _ => none
  | (k', v) :: rest, k => if k' = k then some v else jGet rest k

/-- Python `str` of a JSON literal (used for enum literal lists; the schemas
under verification carry string literals). -/
def jvalAsString : JVal → String
  | .jstr s => s
  | .jbool true => "True"
  | .jbool false => "False"
  | .jnum n => toString n
  | .jnull => "None"
  | _ => ""

/-- The attribute value stored for a recognized schema key.  JSON objects as
attribute values do not occur in the schemas under verification and are
recorded as `nil`. -/
def attrOfJVal : JVal → AttrVal
  | .jstr s => .s s
  | .jbool b => .b b
  | .jnum n => .i n
  | .jnull => .nil
  | .jarr xs => .lst (xs.map jvalAsString)
  | .jobj _ => .nil

/-- `ATTRIBUTE_KEYS` of `schema/core.py`. -/
def ATTRIBUTE_KEYS : List String :=
  ["x-queryable", "x-mutable", "DataType", "Required", "Array", "UniqueName",
   "enum", "type"]

/-- `is_array` inside `extract_nodes`:
`node.get("type") == "array" or "items" in node`. -/
def nodeIsArray (fs : List (String × JVal)) : Bool :=
  (match jGet fs "type" with
   | some (.jstr s) => s = "array"
   | _ => false) || (jGet fs "items").isSome

/-- `get_description`: prefer a truthy upper-case `Description` over
`description` (both default to the empty string). -/
def getDescription (fs : List (String × JVal)) : String :=
  let d1 := match jGet fs "Description" with | some (.jstr s) => s | _ => ""
  if d1 ≠ "" then d1
  else match jGet fs "description" with | some (.jstr s) => s | _ => ""

/-- The `branch` condition: a non-empty `properties` dict, or an `items`
value that is a dict. -/
def nodeBranch (fs : List (String × JVal)) : Bool :=
  (match jGet fs "properties" with
   | some (.jobj ps) => !ps.isEmpty
   | _ => false) ||
  (match jGet fs "items" with
   | some (.jobj _) => true
   | _ => false)

/-- `extract_attributes`: re-key the recognized source keys to camelCase,
derive `array` when no explicit `Array` key exists, and record
`type = node.get("type", node.get("DataType", None))`. -/
def extractAttributes (fs : List (String × JVal)) : List (String × AttrVal) :=
  let base := ATTRIBUTE_KEYS.foldl
    (fun acc k =>
      match jGet fs k with
      | some v => dictInsert acc (toCamelCase k) (attrOfJVal v)
      | none => acc) []
  let base :=
    match jGet fs "Array" with
    | some v => dictInsert base "array" (attrOfJVal v)
    | none =>
      dictInsert base "array" (.s (if nodeIsArray fs then "Yes" else "No"))
  dictInsert base "type"
    (match jGet fs "type" with
     | some v => attrOfJVal v
     | none =>
       match jGet fs "DataType" with
       | some v => attrOfJVal v
       | none => .nil)

/-- A value found by dict lookup is structurally smaller than the object list
(termination helper for `extractNodes`). -/
theorem jGet_sizeOf_lt {fs : List (String × JVal)} {k : String} {v : JVal}
    (h : jGet fs k = some v) : sizeOf v < sizeOf fs := by
  induction fs with
  | nil => simp [jGet] at h
  | cons kv rest ih =>
    obtain ⟨k', v'⟩ := kv
    by_cases hk : k' = k
    · simp [jGet, hk] at h
      subst h
      simp
      omega
    · simp [jGet, hk] at h
      have := ih h
      simp
      omega

mutual
/-- `schema.core.extract_nodes`: emit a `SchemaField` for every dict node.
The node's own record carries the camelCase-normalized dotted path, the
description, the recognized attributes and the branch/leaf markers; then the
`properties` children are visited with the property key appended to the
prefix, and `items` (a dict, or a list of schemas for tuple validation) is
visited with the unchanged prefix.  Non-dict input yields no records. -/
def extractNodes : JVal → String → List SchemaField
  | .jobj fs, p =>
    let br := nodeBranch fs
    let attrs :=
      dictInsert (dictInsert (extractAttributes fs) "branch" (.b br))
        "leaf" (.b !br)
    let self : SchemaField := ⟨camelcasePath (rstripDots p), getDescription fs, attrs⟩
    let propPart :=
      match hp : jGet fs "properties" with
      | some (.jobj ps) => extractProps ps p
      | _ => []
    let itemsPart :=
      match hi : jGet fs "items" with
      | some (.jobj g) => extractNodes (.jobj g) p
      | some (.jarr subs) => extractList subs p
      | _ => []
    self :: (propPart ++ itemsPart)
  | _, _ => []
termination_by v _ => sizeOf v
decreasing_by
  · have := jGet_sizeOf_lt hp
    simp at this ⊢
    omega
  · have := jGet_sizeOf_lt hi
    simp at this ⊢
    omega
  · have := jGet_sizeOf_lt hi
    simp at this ⊢
    omega

/-- The `properties` loop of `extract_nodes`: visit each property with its
key appended to the path prefix. -/
def extractProps : List (String × JVal) → String → List SchemaField
  | [], _ => []
  | (prop, val) :: rest, p =>
    extractNodes val (if p = "" then prop else p ++ "." ++ prop) ++
      extractProps rest p
termination_by l _ => sizeOf l

/-- The tuple-validation loop of `extract_nodes`: visit each item schema with
the unchanged path prefix. -/
def extractList : List JVal → String → List SchemaField
  | [], _ => []
  | v :: rest, p => extractNodes v p ++ extractList rest p
termination_by l _ => sizeOf l
end

/-- The `SchemaField` that `extract_nodes` emits for a dict node itself. -/
def selfField (fs : List (String × JVal)) (p : String) : SchemaField :=
  ⟨camelcasePath (rstripDots p), getDescription fs,
    dictInsert (dictInsert (extractAttributes fs) "branch" (.b (nodeBranch fs)))
      "leaf" (.b !(nodeBranch fs))⟩

/-- The `properties` recursion slice of `extract_nodes` on a dict node. -/
def propsPart (fs : List (String × JVal)) (p : String) : List SchemaField :=
  match jGet fs "properties" with
  | some (.jobj ps) => extractProps ps p
  | _ => []

/-- The `items` recursion slice of `extract_nodes` on a dict node. -/
def itemsPart (fs : List (String × JVal)) (p : String) : List SchemaField :=
  match jGet fs "items" with
  | some (.jobj g) => extractNodes (.jobj g) p
  | some (.jarr subs) => extractList subs p
  | _ => []

/-- The defining decomposition of `extract_nodes` on a dict node. -/
theorem extractNodes_obj (fs : List (String × JVal)) (p : String) :
    extractNodes (.jobj fs) p =
      selfField fs p :: (propsPart fs p ++ itemsPart fs p) := by
  rw [extractNodes]
  show _ :: (_ ++ _) = _
  congr 1
  congr 1
  · unfold propsPart
    split <;> simp_all
  · unfold itemsPart
    split <;> simp_all

/-! ## `graphql.utils.get_selected_field_paths` -/

/-- One node of the parsed selection tree: a field with an optional selection
set, or a fragment spread.  A fragment definition is modelled as a `field`
node (the code only ever reads its `selection_set`). -/
inductive SelNode : Type where
  | field (name : String) (selectionSet : Option (List SelNode))
  | spread (name : String)

mutual
/-- `get_selected_field_paths`: Python result is an unordered `set`, modelled
as a `Finset`; a missing fragment raises `KeyError`; `fuel` bounds the
recursion depth exactly as the Python interpreter's stack does (every
recursive `get_selected_field_paths` call consumes one unit). -/
def getSelectedFieldPaths (fuel : Nat)
    (frags : List (String × SelNode)) (nodes : List SelNode)
    (pfx : List String) : Except String (Finset String) :=
  match fuel with
  | 0 => .error "maximum recursion depth exceeded"
  | fuel + 1 => sfpNodes fuel frags nodes pfx
termination_by (fuel, 0, 0)

/-- The `for node in field_nodes` loop: skip nodes without a selection set. -/
def sfpNodes (fuel : Nat) (frags : List (String × SelNode))
    (nodes : List SelNode) (pfx : List String) :
    Except String (Finset String) :=
  match nodes with
  | [] => .ok ∅
  | node :: rest => do
    let s₁ ←
      match node with
      | .spread _ => pure (∅ : Finset String)
      | .field _ none => pure (∅ : Finset String)
      | .field _ (some sels) => sfpSels fuel frags sels pfx
    let s₂ ← sfpNodes fuel frags rest pfx
    pure (s₁ ∪ s₂)
termination_by (fuel, sizeOf nodes, 0)

/-- The `for selection in sel_set.selections` loop: a field selection adds its
dotted path and recurses with the extended prefix; a fragment spread looks the
fragment up and recurses at the unchanged prefix. -/
def sfpSels (fuel : Nat) (frags : List (String × SelNode))
    (sels : List SelNode) (pfx : List String) :
    Except String (Finset String) :=
  match sels with
  | [] => .ok ∅
  | .field n ss :: rest => do
    let path := pfx ++ [n]
    let sub ← getSelectedFieldPaths fuel frags [.field n ss] path
    let restS ← sfpSels fuel frags rest pfx
    pure (insert (String.intercalate "." path) (sub ∪ restS))
  | .spread n :: rest =>
    match assocGet frags n with
    | none => .error ("KeyError: " ++ n)
    | some frag => do
      let sub ← getSelectedFieldPaths fuel frags [frag] pfx
      let restS ← sfpSels fuel frags rest pfx
      pure (sub ∪ restS)
termination_by (fuel, sizeOf sels, 1)
end

/-! ## `graphql.utils.serialize_for_json` and `pydantic_inputs_to_dict` -/

/-- A run-time Python value as held by a Pydantic model instance: `None`,
scalars, dates (carrying their ISO-8601 rendering), enum members (carrying
their literal value), lists, plain dicts, and model instances (ordered
field-to-value maps). -/
inductive PyVal : Type where
  | vnone
  | vbool (b : Bool)
  | vint (n : Int)
  | vstr (s : String)
  | vdate (iso : String)
  | venum (value : String)
  | vlist (xs : List PyVal)
  | vdict (fs : List (String × PyVal))
  | vmodel (fs : List (String × PyVal))

/-- A JSON-serialisable output value. -/
inductive JOut : Type where
  | onull
  | obool (b : Bool)
  | oint (n : Int)
  | ostr (s : String)
  | oarr (xs : List JOut)
  | oobj (fs : List (String × JOut))

def PyVal.isNone : PyVal → Bool
  | .vnone => true
  | _ => false

mutual
/-- `graphql.utils.serialize_for_json`.  The `hasattr(obj, "model_dump")`
branch — `serialize_for_json(obj.model_dump(exclude_none=True))` — is fused
into the `vmodel` case for termination: Pydantic's
`model_dump(exclude_none=True)` recursively turns models into dicts dropping
every field whose value is `None` (at every model level), and the subsequent
serialisation walk is the remaining cases; the fused recursion performs
exactly that composite.  Dates map to ISO strings, enum members to their
values, lists and dicts are walked recursively, scalars pass through. -/
def serializeForJson : PyVal → JOut
  | .vmodel fs => .oobj (serModelFields fs)
  | .vdict fs => .oobj (serDictEntries fs)
  | .vlist xs => .oarr (serElems xs)
  | .venum v => .ostr v
  | .vdate s => .ostr s
  | .vnone => .onull
  | .vbool b => .obool b
  | .vint n => .oint n
  | .vstr s => .ostr s

/-- Model fields under `model_dump(exclude_none=True)`: fields bound to
`None` are omitted, the rest are serialised. -/
def serModelFields : List (String × PyVal) → List (String × JOut)
  | [] => []
  | (k, v) :: rest =>
    if v.isNone then serModelFields rest
    else (k, serializeForJson v) :: serModelFields rest

/-- Plain dict entries: all serialised, nothing omitted. -/
def serDictEntries : List (String × PyVal) → List (String × JOut)
  | [] => []
  | (k, v) :: rest => (k, serializeForJson v) :: serDictEntries rest

/-- List elements: all serialised, nothing omitted. -/
def serElems : List PyVal → List JOut
  | [] => []
  | v :: rest => serializeForJson v :: serElems rest
end

/-- `graphql.core.pydantic_inputs_to_dict`: `None` stays `None`; an input
object (whose `to_pydantic()` image is the given model value) is serialised
with `serialize_for_json`. -/
def pydanticInputsToDict (filterInput mutationInput : Option PyVal) :
    Option JOut × Option JOut :=
  (filterInput.map serializeForJson, mutationInput.map serializeForJson)

/-! ## Predicates for the serialisation claims -/

/-- Whether a JSON output value is `null`. -/
def JOut.isNull : JOut → Bool
  | .onull => true
  | _ => false

mutual
/-- No object entry anywhere in the output is bound to `null` (array elements
are not constrained). -/
def noNullFields : JOut → Bool
  | .oobj fs => noNullFieldsEntries fs
  | .oarr xs => noNullFieldsList xs
  | _ => true

def noNullFieldsEntries : List (String × JOut) → Bool
  | [] => true
  | (_, v) :: rest =>
    !v.isNull && noNullFields v && noNullFieldsEntries rest

def noNullFieldsList : List JOut → Bool
  | [] => true
  | v :: rest => noNullFields v && noNullFieldsList rest
end

mutual
/-- The value contains no plain-dict constructor: the shape of every filter /
mutation input instance of the compiled record types (model fields are
scalars, dates, enums, lists and nested models). -/
def noVDict : PyVal → Bool
  | .vdict _ => false
  | .vlist xs => noVDictList xs
  | .vmodel fs => noVDictEntries fs
  | _ => true

def noVDictEntries : List (String × PyVal) → Bool
  | [] => true
  | (_, v) :: rest => noVDict v && noVDictEntries rest

def noVDictList : List PyVal → Bool
  | [] => true
  | v :: rest => noVDict v && noVDictList rest
end

/-- Pydantic construction-time required-field check (models the library
behaviour the compiled classes inherit): an instance can be constructed from
the given keyword names iff every field lacking a default is supplied.  Type
validation of supplied values is orthogonal to the claims below. -/
def constructOk (m : PyModel) (provided : List String) : Bool :=
  m.fields.all (fun f => f.hasDefault || provided.contains f.name)

end LifCore

namespace LifCore

/-! ## Association-list lemmas -/

@[simp] theorem assocGet_nil {k : String} :
    assocGet ([] : List (String × α)) k = none := rfl

theorem assocGet_mem {d : List (String × α)} {k : String} {v : α}
    (h : assocGet d k = some v) : (k, v) ∈ d := by
  induction d with
  | nil => simp [assocGet] at h
  | cons kv rest ih =>
    obtain ⟨k', v'⟩ := kv
    by_cases hk : k' = k
    · subst hk
      simp [assocGet] at h
      subst h
      exact List.mem_cons_self _ _
    · simp [assocGet, hk] at h
      exact List.mem_cons_of_mem _ (ih h)

theorem assocGet_append (d₁ d₂ : List (String × α)) (k : String) :
    assocGet (d₁ ++ d₂) k =
      match assocGet d₁ k with
      | some v => some v
      | none => assocGet d₂ k := by
  induction d₁ with
  | nil => simp [assocGet]
  | cons kv rest ih =>
    obtain ⟨k', v'⟩ := kv
    by_cases hk : k' = k <;> simp [assocGet, hk, ih]

@[simp] theorem assocGet_dictInsert_self (d : List (String × α)) (k : String)
    (v : α) : assocGet (dictInsert d k v) k = some v := by
  induction d with
  | nil => simp [dictInsert, assocGet]
  | cons kv rest ih =>
    obtain ⟨k', v'⟩ := kv
    by_cases hk : k' = k <;> simp [dictInsert, assocGet, hk, ih]

theorem assocGet_dictInsert_ne (d : List (String × α)) {k k' : String}
    (v : α) (h : k' ≠ k) :
    assocGet (dictInsert d k v) k' = assocGet d k' := by
  have hne : ¬ k = k' := fun he => h he.symm
  induction d with
  | nil => simp [dictInsert, assocGet, hne]
  | cons kv rest ih =>
    obtain ⟨k₀, v₀⟩ := kv
    by_cases hk : k₀ = k
    · subst hk
      simp [dictInsert, assocGet, hne]
    · simp [dictInsert, assocGet, hk, ih]

theorem mem_dictInsert {d : List (String × α)} {x : String × α}
    {k : String} {v : α} (h : x ∈ dictInsert d k v) : x = (k, v) ∨ x ∈ d := by
  induction d with
  | nil => simpa [dictInsert] using h
  | cons kv rest ih =>
    obtain ⟨k₀, v₀⟩ := kv
    by_cases hk : k₀ = k
    · subst hk
      rw [dictInsert] at h
      simp only [if_pos rfl] at h
      rcases List.mem_cons.mp h with h | h
      · exact Or.inl h
      · exact Or.inr (List.mem_cons_of_mem _ h)
    · rw [dictInsert] at h
      simp only [if_neg hk] at h
      rcases List.mem_cons.mp h with h | h
      · exact Or.inr (by simp [h])
      · rcases ih h with h' | h'
        · exact Or.inl h'
        · exact Or.inr (List.mem_cons_of_mem _ h')

theorem mem_keys_dictInsert_iff {d : List (String × α)} {a k : String}
    {v : α} :
    a ∈ (dictInsert d k v).map Prod.fst ↔ a = k ∨ a ∈ d.map Prod.fst := by
  induction d with
  | nil => simp [dictInsert]
  | cons kv rest ih =>
    obtain ⟨k₀, v₀⟩ := kv
    by_cases hk : k₀ = k
    · subst hk
      rw [dictInsert]
      simp only [if_pos rfl]
      simp
      try tauto
    · rw [dictInsert]
      simp only [if_neg hk]
      simp [ih]
      try tauto

theorem nodup_keys_dictInsert {d : List (String × α)} (k : String) (v : α)
    (h : (d.map Prod.fst).Nodup) :
    ((dictInsert d k v).map Prod.fst).Nodup := by
  induction d with
  | nil => simp [dictInsert]
  | cons kv rest ih =>
    obtain ⟨k₀, v₀⟩ := kv
    rw [List.map_cons] at h
    obtain ⟨hnotin, hrest⟩ := List.nodup_cons.mp h
    by_cases hk : k₀ = k
    · subst hk
      rw [dictInsert, if_pos rfl]
      simp only [List.map_cons, List.nodup_cons]
      exact ⟨hnotin, hrest⟩
    · rw [dictInsert]
      simp only [if_neg hk, List.map_cons, List.nodup_cons]
      constructor
      · intro hmem
        rcases mem_keys_dictInsert_iff.mp hmem with h' | h'
        · exact hk h'
        · exact hnotin h'
      · exact ih hrest

/-! ## Lemmas about the `make_enum` cache -/

/-- Sorting ignores the order of the input values. -/
theorem pySortedStrings_perm_eq {vs vs' : List String} (h : vs.Perm vs') :
    pySortedStrings vs = pySortedStrings vs' :=
  List.eq_of_perm_of_sorted
    ((List.perm_insertionSort _ vs).trans
      (h.trans (List.perm_insertionSort _ vs').symm))
    (List.sorted_insertionSort _ vs) (List.sorted_insertionSort _ vs')

/-- The cache key does not depend on the order of the values. -/
theorem makeEnumKey_perm {name : String} {vs vs' : List String}
    (h : vs.Perm vs') : makeEnumKey name vs = makeEnumKey name vs' := by
  unfold makeEnumKey
  rw [pySortedStrings_perm_eq h]

/-- After a `make_enum` call, its cache key is bound to the returned id. -/
theorem makeEnum_lookup_self (name : String) (vs : List String)
    (st : EnumState) :
    assocGet (makeEnum name vs st).2.cache (makeEnumKey name vs)
      = some (makeEnum name vs st).1 := by
  unfold makeEnum
  cases h : assocGet st.cache (makeEnumKey name vs) with
  | some id => simp [h]
  | none => simp [assocGet_append, h, assocGet]

/-- A cache hit returns the cached id and leaves the state untouched. -/
theorem makeEnum_of_hit {name : String} {vs : List String} {st : EnumState}
    {id : Nat} (h : assocGet st.cache (makeEnumKey name vs) = some id) :
    makeEnum name vs st = (id, st) := by
  unfold makeEnum
  simp [h]

end LifCore

namespace LifCore

/-- A cache miss allocates the fresh id and appends the binding. -/
theorem makeEnum_of_miss {name : String} {vs : List String} {st : EnumState}
    (h : assocGet st.cache (makeEnumKey name vs) = none) :
    makeEnum name vs st =
      (st.nextId,
       ⟨st.cache ++ [(makeEnumKey name vs, st.nextId)], st.nextId + 1⟩) := by
  unfold makeEnum
  simp [h]

/-- The empty cache is well-formed. -/
theorem EnumState.WF_empty : EnumState.empty.WF :=
  ⟨by simp [EnumState.empty], by simp [EnumState.empty]⟩

/-- Distinct cache keys yield distinct type objects (on a well-formed
cache). -/
theorem makeEnum_ne_of_key_ne {name name' : String} {vs vs' : List String}
    {st : EnumState} (hwf : st.WF)
    (hk : makeEnumKey name vs ≠ makeEnumKey name' vs') :
    (makeEnum name' vs' (makeEnum name vs st).2).1 ≠ (makeEnum name vs st).1 := by
  cases h1 : assocGet st.cache (makeEnumKey name vs) with
  | some id1 =>
    rw [makeEnum_of_hit h1]
    cases h2 : assocGet st.cache (makeEnumKey name' vs') with
    | some id2 =>
      rw [makeEnum_of_hit h2]
      intro he
      subst he
      have hmem1 := assocGet_mem h1
      have hmem2 := assocGet_mem h2
      have := List.inj_on_of_nodup_map hwf.nodup hmem1 hmem2 rfl
      exact hk (congrArg Prod.fst this)
    | none =>
      rw [makeEnum_of_miss h2]
      have := hwf.lt _ (assocGet_mem h1)
      simp only []
      omega
  | none =>
    rw [makeEnum_of_miss h1]
    cases h2 : assocGet
        (st.cache ++ [(makeEnumKey name vs, st.nextId)])
        (makeEnumKey name' vs') with
    | some id2 =>
      have : makeEnum name' vs'
          (⟨st.cache ++ [(makeEnumKey name vs, st.nextId)], st.nextId + 1⟩
            : EnumState) =
          (id2, ⟨st.cache ++ [(makeEnumKey name vs, st.nextId)],
            st.nextId + 1⟩) :=
        makeEnum_of_hit h2
      rw [this]
      have hmem := assocGet_mem h2
      rcases List.mem_append.mp hmem with hmem | hmem
      · have := hwf.lt _ hmem
        simp only []
        omega
      · simp at hmem
        exact absurd hmem.1.symm hk
    | none =>
      have : makeEnum name' vs'
          (⟨st.cache ++ [(makeEnumKey name vs, st.nextId)], st.nextId + 1⟩
            : EnumState) =
          (st.nextId + 1,
           ⟨(st.cache ++ [(makeEnumKey name vs, st.nextId)]) ++
              [(makeEnumKey name' vs', st.nextId + 1)], st.nextId + 1 + 1⟩) :=
        makeEnum_of_miss h2
      rw [this]
      simp only []
      omega

/-- Unfolding of `String.intercalate.go` lengths. -/
theorem intercalate_go_length (s : String) (as : List String) :
    ∀ a : String, (String.intercalate.go a s as).length
      = a.length + (as.map (fun x => s.length + x.length)).sum := by
  induction as with
  | nil =>
    intro a
    simp [String.intercalate.go]
  | cons b bs ih =>
    intro a
    rw [String.intercalate.go, ih, String.length_append, String.length_append]
    simp
    omega

/-- Length of an underscore join of a non-empty list. -/
theorem intercalate_underscore_length {l : List String} (hl : l ≠ []) :
    (String.intercalate "_" l).length + 1
      = (l.map String.length).sum + l.length := by
  match l with
  | [] => exact absurd rfl hl
  | x :: ls =>
    rw [String.intercalate, intercalate_go_length]
    have hu : ("_" : String).length = 1 := rfl
    have : ∀ ms : List String,
        (ms.map (fun y => ("_" : String).length + y.length)).sum
          = ms.length + (ms.map String.length).sum := by
      intro ms
      induction ms with
      | nil => simp
      | cons m ms ih =>
        simp [ih, hu]
        omega
    rw [this]
    simp
    omega

/-- Appending one more value changes the cache key, except in the degenerate
case of appending the empty string to an empty value list. -/
theorem makeEnumKey_append_ne (name : String) (vs : List String) (e : String)
    (h : vs ≠ [] ∨ e ≠ "") :
    makeEnumKey name vs ≠ makeEnumKey name (vs ++ [e]) := by
  intro hk
  have hlen := congrArg String.length hk
  rw [makeEnumKey, makeEnumKey, String.length_append, String.length_append,
    String.length_append, String.length_append] at hlen
  have hperm1 : (pySortedStrings vs).Perm vs := List.perm_insertionSort _ vs
  have hperm2 : (pySortedStrings (vs ++ [e])).Perm (vs ++ [e]) :=
    List.perm_insertionSort _ (vs ++ [e])
  rcases vs with _ | ⟨v, vs'⟩
  · have he : e ≠ "" := by tauto
    have h2 : pySortedStrings ([] ++ [e]) = [e] := rfl
    rw [h2] at hlen
    have hpos : 0 < e.length := by
      obtain ⟨data⟩ := e
      cases data with
      | nil => exact absurd rfl he
      | cons c cs => exact Nat.succ_pos cs.length
    have h3 : (String.intercalate "_" (pySortedStrings ([] : List String))).length = 0 := rfl
    have h4 : (String.intercalate "_" [e]).length = e.length := by
      show (String.intercalate.go e "_" []).length = e.length
      rw [String.intercalate.go]
    rw [h3, h4] at hlen
    omega
  · have hne1 : pySortedStrings (v :: vs') ≠ [] := by
      intro hnil
      have := hperm1.length_eq
      rw [hnil] at this
      simp at this
    have hne2 : pySortedStrings ((v :: vs') ++ [e]) ≠ [] := by
      intro hnil
      have := hperm2.length_eq
      rw [hnil] at this
      simp at this
    have hL1 := intercalate_underscore_length hne1
    have hL2 := intercalate_underscore_length hne2
    have hsum1 : ((pySortedStrings (v :: vs')).map String.length).sum
        = ((v :: vs').map String.length).sum := (hperm1.map _).sum_eq
    have hsum2 : ((pySortedStrings ((v :: vs') ++ [e])).map
          String.length).sum
        = (((v :: vs') ++ [e]).map String.length).sum := (hperm2.map _).sum_eq
    have hlen1 := hperm1.length_eq
    have hlen2 := hperm2.length_eq
    rw [hsum1, hlen1] at hL1
    rw [hsum2, hlen2] at hL2
    rw [List.map_append, List.sum_append, List.length_append] at hL2
    simp only [List.map_cons, List.sum_cons, List.map_nil, List.sum_nil,
      List.length_cons, List.length_nil] at hL1 hL2
    omega

end LifCore

namespace LifCore

/-! ## Claims C9 and C4 -/

/-- C9: the `make_enum` cache key joins the name and the sorted stringified
values with unescaped underscores, so distinct `(name, values)` argument
pairs collide on one cache key: `make_enum("Color", ["red_blue"])` and
`make_enum("Color_red", ["blue"])` share the key `"Color_red_blue"`, and the
later call returns the reference-identical type object (same cached id, state
untouched) even though its requested name and member values differ. -/
theorem claim_C9_enum_cache_key_collision :
    makeEnumKey "Color" ["red_blue"] = makeEnumKey "Color_red" ["blue"] ∧
    makeEnum "Color_red" ["blue"]
        (makeEnum "Color" ["red_blue"] EnumState.empty).2
      = ((makeEnum "Color" ["red_blue"] EnumState.empty).1,
         (makeEnum "Color" ["red_blue"] EnumState.empty).2) ∧
    ("Color" : String) ≠ "Color_red" ∧
    (["red_blue"] : List String) ≠ ["blue"] :=
  ⟨by decide, by decide, by decide, by decide⟩

/-- C4 counterexample: `make_enum("Color", ["a_b"])` and
`make_enum("Color", ["a", "b"])` are called with the same name and different
value sets, yet the second call hits the first call's cache entry (both keys
are `"Color_a_b"`) and returns the reference-identical type object —
refuting "whenever the value set differs, a distinct type is returned even
under the same name". -/
theorem claim_C4_counterexample :
    (["a_b"] : List String) ≠ ["a", "b"] ∧
    makeEnum "Color" ["a", "b"] (makeEnum "Color" ["a_b"] EnumState.empty).2
      = ((makeEnum "Color" ["a_b"] EnumState.empty).1,
         (makeEnum "Color" ["a_b"] EnumState.empty).2) :=
  ⟨by decide, by decide⟩

/-- C4 (amended): (1) `make_enum(name, values)` and
`make_enum(name, shuffled(values))` return the reference-identical type
object (and the second call leaves the cache untouched); (2) on a well-formed
cache, `make_enum(name, values)` and `make_enum(name, values + [extra])`
return distinct types provided `values ≠ []` or `extra ≠ ""` (the one
degenerate collision); (3) a distinct type is returned whenever the cache
keys — name joined with the sorted stringified values by unescaped
underscores — differ; distinct value sets with colliding keys alias the same
type object. -/
theorem claim_C4_enum_identity :
    (∀ (name : String) (vs vs' : List String) (st : EnumState), vs.Perm vs' →
        makeEnum name vs' (makeEnum name vs st).2
          = ((makeEnum name vs st).1, (makeEnum name vs st).2)) ∧
    (∀ (name : String) (vs : List String) (e : String) (st : EnumState),
        st.WF → (vs ≠ [] ∨ e ≠ "") →
        (makeEnum name (vs ++ [e]) (makeEnum name vs st).2).1
          ≠ (makeEnum name vs st).1) ∧
    (∀ (name name' : String) (vs vs' : List String) (st : EnumState),
        st.WF → makeEnumKey name vs ≠ makeEnumKey name' vs' →
        (makeEnum name' vs' (makeEnum name vs st).2).1
          ≠ (makeEnum name vs st).1) := by
  refine ⟨?_, ?_, ?_⟩
  · intro name vs vs' st hperm
    have hk : makeEnumKey name vs' = makeEnumKey name vs :=
      makeEnumKey_perm hperm.symm
    exact makeEnum_of_hit (by rw [hk]; exact makeEnum_lookup_self name vs st)
  · intro name vs e st hwf h
    exact makeEnum_ne_of_key_ne hwf (makeEnumKey_append_ne name vs e h)
  · intro name name' vs vs' st hwf hk
    exact makeEnum_ne_of_key_ne hwf hk

/-- Witness for `claim_C4_enum_identity` at concrete inputs: a shuffled value
list returns the identical object, an appended extra value returns a fresh
one, and differing cache keys return distinct objects, all from the empty
cache. -/
theorem claim_C4_witness :
    makeEnum "N" ["b", "a"] (makeEnum "N" ["a", "b"] EnumState.empty).2
      = ((makeEnum "N" ["a", "b"] EnumState.empty).1,
         (makeEnum "N" ["a", "b"] EnumState.empty).2) ∧
    (makeEnum "N" (["x"] ++ ["y"]) (makeEnum "N" ["x"] EnumState.empty).2).1
      ≠ (makeEnum "N" ["x"] EnumState.empty).1 ∧
    (makeEnum "M" ["q"] (makeEnum "N" ["p"] EnumState.empty).2).1
      ≠ (makeEnum "N" ["p"] EnumState.empty).1 :=
  ⟨claim_C4_enum_identity.1 "N" ["a", "b"] ["b", "a"] EnumState.empty
      (by decide),
   claim_C4_enum_identity.2.1 "N" ["x"] "y" EnumState.empty
      EnumState.WF_empty (by decide),
   claim_C4_enum_identity.2.2 "N" "M" ["p"] ["q"] EnumState.empty
      EnumState.WF_empty (by decide)⟩

end LifCore

namespace LifCore

/-
The scanners and tree walks above are defined by well-founded recursion;
make them definitionally reducible so that closed instances evaluate inside
`rfl` / `decide` proofs.
-/
unseal pySplitRuns sub1 sub2 toCamelCaseAux pascalTokens buildModel buildFields extractNodes extractProps extractList getSelectedFieldPaths sfpNodes sfpSels

/-! ## Claim C5 -/

/-- A non-empty string has positive length. -/
theorem length_pos_of_ne_empty {s : String} (h : s ≠ "") : 0 < s.length := by
  obtain ⟨data⟩ := s
  cases data with
  | nil => exact absurd rfl h
  | cons c cs => exact Nat.succ_pos cs.length

/-- Python `capitalize` preserves the length. -/
theorem pyCapitalize_length (s : String) :
    (pyCapitalize s).length = s.length := by
  obtain ⟨data⟩ := s
  cases data with
  | nil => rfl
  | cons c cs =>
    show (c.toUpper :: cs.map Char.toLower).length = (c :: cs).length
    simp

/-- `to_pascal_case` of a one-element list is Python `capitalize`. -/
theorem toPascalParts_single (r : String) :
    toPascalParts [r] = pyCapitalize r := by
  unfold toPascalParts
  by_cases h : r = ""
  · subst h
    rfl
  · simp [h, String.join]

/-- C5 counterexample: for the configured root node `"PersonData"` the root's
own compiled key is `"personData"`, and
`unique_type_name("personData", "FilterInput", "PersonData")` evaluates to
`"PersondataFilterInput"` — Python `str.capitalize()` lower-cases the tail —
which differs from `"<Root>FilterInput" = "PersonDataFilterInput"`, refuting
"always equals `<Root>FilterInput`". -/
theorem claim_C5_counterexample :
    uniqueTypeName "personData" "FilterInput" "PersonData"
      = "PersondataFilterInput" ∧
    pascalFromStr "PersonData" = "PersonData" ∧
    pascalFromStr "personData" = "PersonData" ∧
    ("PersondataFilterInput" : String) ≠ "PersonDataFilterInput" :=
  ⟨by decide, by decide, by decide, by decide⟩

/-- C5 (amended): for the root entity itself — a single-segment key whose
PascalCase form equals the PascalCase root — the projected filter-input name
equals `capitalize(<Root>) ++ "FilterInput"` (so exactly
`"<Root>FilterInput"` for single-word roots, but with the tail of a
multi-word root lower-cased by Python `capitalize`), and it never equals the
double-qualified `"<Root><Root>FilterInput"`: the leading segment equal to
the root is stripped before the suffix is appended. -/
theorem claim_C5_root_projection_naming :
    ∀ (key rootNode : String),
      splitNonWord key = [key] →
      pascalFromStr key = pascalFromStr rootNode →
      uniqueTypeName key "FilterInput" rootNode
        = pyCapitalize (pascalFromStr rootNode) ++ "FilterInput" ∧
      (pascalFromStr rootNode ≠ "" →
        uniqueTypeName key "FilterInput" rootNode
          ≠ pascalFromStr rootNode ++ pascalFromStr rootNode
              ++ "FilterInput") := by
  intro key rootNode hsplit hpascal
  have hcap : capFirst "FilterInput" = "FilterInput" := rfl
  have hmain : uniqueTypeName key "FilterInput" rootNode
      = pyCapitalize (pascalFromStr rootNode) ++ "FilterInput" := by
    unfold uniqueTypeName
    rw [hsplit]
    simp [hpascal, toPascalParts_single, hcap]
  refine ⟨hmain, fun hne heq => ?_⟩
  rw [hmain] at heq
  have hlen := congrArg String.length heq
  rw [String.length_append, String.length_append, String.length_append,
    pyCapitalize_length] at hlen
  have hpos := length_pos_of_ne_empty hne
  omega

/-- Witness for `claim_C5_root_projection_naming`: the root node `"Person"`
with its compiled key `"person"` projects to `"PersonFilterInput"` and not to
`"PersonPersonFilterInput"`. -/
theorem claim_C5_witness :
    uniqueTypeName "person" "FilterInput" "Person"
      = pyCapitalize (pascalFromStr "Person") ++ "FilterInput" ∧
    (pascalFromStr "Person" ≠ "" →
      uniqueTypeName "person" "FilterInput" "Person"
        ≠ pascalFromStr "Person" ++ pascalFromStr "Person"
            ++ "FilterInput") :=
  claim_C5_root_projection_naming "person" "Person" (by decide) (by decide)

end LifCore

namespace LifCore

unseal pySplitRuns sub1 sub2 toCamelCaseAux pascalTokens buildModel buildFields extractNodes extractProps extractList getSelectedFieldPaths sfpNodes sfpSels

/-! ## Claim C2 -/

/-- The queryable leaf used in the C2 instances: scalar `xsd:integer`,
`array=Yes`. -/
def c2field : SchemaField :=
  ⟨"p.x", "",
   [("xQueryable", .b true), ("dataType", .s "xsd:integer"),
    ("array", .s "Yes")]⟩

/-- C2 counterexample: compiling the queryable leaf `p.x` (scalar
`xsd:integer`, `array=Yes`) with `all_optional=True` annotates the field as
`Optional[List[int]]` — an optional list of int — whereas the claim's "list
of optional X" is `List[Optional[int]]`, a different type. -/
theorem claim_C2_counterexample :
    ((buildDynamicModel [c2field] (some "xQueryable") "Data model"
        false "" true).toOption.bind
      (fun ms => assocGet ms "p")).map
        (fun m => m.fields.map PyField.ty)
      = some [.popt (.plist .pint)] ∧
    PyType.popt (.plist .pint) ≠ PyType.plist (.popt .pint) := by
  constructor
  · rfl
  · intro h
    cases h

/-- C2 (amended): a leaf field with no enum attribute and an `array=Yes`
attribute compiles to `List[X]` for its scalar type `X`, wrapped as
`Optional[List[X]]` — an optional list, not a list of optionals — under
`all_optional`; and a branch field marked array-valued compiles to
`List[nested-record]` (`Optional[List[nested-record]]` under `all_optional`),
never the bare nested record. -/
theorem claim_C2_array_wrapping :
    (∀ (ctx : BuildCtx) (sf : SchemaField) (name : String),
        sf.attrGet "enum" = none →
        isYes (sf.attrGetD "array" (.s "No")) = true →
        fieldType ctx sf name =
          if ctx.allOptional then .popt (.plist (scalarType sf))
          else .plist (scalarType sf)) ∧
    (∀ (allOpt : Bool) (cm : PyModel),
        branchFieldType allOpt true cm =
          (if allOpt then PyType.popt (.plist (.pmodel cm))
           else .plist (.pmodel cm)) ∧
        branchFieldType allOpt true cm ≠ .pmodel cm ∧
        branchFieldType allOpt true cm ≠ .popt (.pmodel cm)) := by
  constructor
  · intro ctx sf name henum harr
    cases hopt : ctx.allOptional <;>
      simp [fieldType, henum, harr, mkOptional, hopt]
  · intro allOpt cm
    refine ⟨?_, ?_, ?_⟩ <;> cases allOpt <;>
      simp [branchFieldType, mkOptional]

/-- Witness for `claim_C2_array_wrapping`: the concrete array-valued integer
leaf compiles to an optional list of int under `all_optional`, and a concrete
array-valued branch compiles to a list of the nested record. -/
theorem claim_C2_witness :
    fieldType ⟨"p", "", "Data model", false, true, []⟩ c2field "X"
      = (if true then PyType.popt (.plist (scalarType c2field))
         else .plist (scalarType c2field)) ∧
    branchFieldType true true (PyModel.mk "M" [] false "")
      ≠ PyType.pmodel (PyModel.mk "M" [] false "") :=
  ⟨claim_C2_array_wrapping.1 ⟨"p", "", "Data model", false, true, []⟩
      c2field "X" rfl rfl,
   (claim_C2_array_wrapping.2 true (PyModel.mk "M" [] false "")).2.1⟩

end LifCore

namespace LifCore

unseal pySplitRuns sub1 sub2 toCamelCaseAux pascalTokens buildModel buildFields extractNodes extractProps extractList getSelectedFieldPaths sfpNodes sfpSels

set_option maxRecDepth 100000

/-! ## Claim C7 -/

/-- Binding a successful `Except` computation applies the continuation. -/
theorem except_ok_bind {α β : Type} (a : α) (f : α → Except String β) :
    (Except.ok a : Except String α) >>= f = f a := rfl

/-- C7: on the selection tree `a → b` next to `c` under one query field and
the empty prefix, extraction yields exactly the path set
`a, a.b, c`; and for a fragment spread at any nesting position, the
fragment's body is expanded at the same path depth, so a fragment whose body
is the single field `d` contributes the dotted path `prefix ++ [d]`. -/
theorem claim_C7_selection_paths :
    ((getSelectedFieldPaths 50 []
        [.field "q" (some [.field "a" (some [.field "b" none]),
          .field "c" none])] []).toOption
      = some ({"a", "a.b", "c"} : Finset String)) ∧
    (∀ (fuel : Nat) (pfx : List String) (frags : List (String × SelNode))
        (fname : String),
        assocGet frags "F" = some (.field fname (some [.field "d" none])) →
        ∃ s : Finset String,
          getSelectedFieldPaths (fuel + 3) frags
              [.field "q" (some [.spread "F"])] pfx = .ok s ∧
          String.intercalate "." (pfx ++ ["d"]) ∈ s) := by
  constructor
  · decide
  · intro fuel pfx frags fname h
    refine ⟨insert (String.intercalate "." (pfx ++ ["d"])) ∅, ?_, by simp⟩
    rw [getSelectedFieldPaths]
    simp only [sfpNodes, sfpSels, h, getSelectedFieldPaths]
    simp [except_ok_bind]

end LifCore

namespace LifCore

/-- Witness for `claim_C7_selection_paths`: a concrete fragment `F` with body
`d`, spread at prefix `x`, contributes the path `x.d`. -/
theorem claim_C7_witness :
    ∃ s : Finset String,
      getSelectedFieldPaths (0 + 3)
          [("F", SelNode.field "frag" (some [SelNode.field "d" none]))]
          [.field "q" (some [.spread "F"])] ["x"] = .ok s ∧
      String.intercalate "." (["x"] ++ ["d"]) ∈ s :=
  claim_C7_selection_paths.2 0 ["x"]
    [("F", .field "frag" (some [.field "d" none]))] "frag" rfl

end LifCore

namespace LifCore

unseal extractNodes extractProps extractList

/-! ## Claim C8 -/

/-- Tuple-validation items are each visited with the same prefix. -/
theorem extractList_eq_flatten (subs : List JVal) (p : String) :
    extractList subs p = (subs.map (fun v => extractNodes v p)).flatten := by
  induction subs with
  | nil => rfl
  | cons v rest ih =>
    rw [extractList, ih]
    simp

/-- C8: on a dict node with an `items` fragment, `extract_nodes` recurses
into the items with the unchanged path prefix: for a dict `items` the node's
extraction is its own record, the `properties` records, then the extraction
of the items object at the same prefix — whose own leading record carries the
same dotted path as the array node itself; for a list `items` (tuple
validation) each item schema is extracted at the same prefix. -/
theorem claim_C8_items_prefix :
    (∀ (fs : List (String × JVal)) (p : String) (g : List (String × JVal)),
        jGet fs "items" = some (.jobj g) →
        extractNodes (.jobj fs) p
          = selfField fs p :: (propsPart fs p ++ extractNodes (.jobj g) p) ∧
        (extractNodes (.jobj g) p).head? = some (selfField g p) ∧
        (selfField g p).json_path = (selfField fs p).json_path) ∧
    (∀ (fs : List (String × JVal)) (p : String) (subs : List JVal),
        jGet fs "items" = some (.jarr subs) →
        extractNodes (.jobj fs) p
          = selfField fs p ::
              (propsPart fs p ++
                (subs.map (fun v => extractNodes v p)).flatten)) := by
  constructor
  · intro fs p g h
    refine ⟨?_, ?_, rfl⟩
    · rw [extractNodes_obj]
      congr 1
      congr 1
      simp [itemsPart, h]
    · rw [extractNodes_obj]
      rfl
  · intro fs p subs h
    rw [extractNodes_obj]
    congr 1
    congr 1
    simp [itemsPart, h, extractList_eq_flatten]

/-- Witness for `claim_C8_items_prefix`: a concrete array node whose `items`
is an object, and one whose `items` is a two-schema list. -/
theorem claim_C8_witness :
    (extractNodes
        (.jobj [("items", .jobj [("type", .jstr "string")])]) "arr"
      = selfField [("items", .jobj [("type", .jstr "string")])] "arr" ::
          (propsPart [("items", .jobj [("type", .jstr "string")])] "arr" ++
            extractNodes (.jobj [("type", .jstr "string")]) "arr") ∧
      (extractNodes (.jobj [("type", .jstr "string")]) "arr").head?
        = some (selfField [("type", .jstr "string")] "arr") ∧
      (selfField [("type", .jstr "string")] "arr").json_path
        = (selfField [("items", .jobj [("type", .jstr "string")])]
            "arr").json_path) ∧
    extractNodes
        (.jobj [("items", .jarr [.jobj [("type", .jstr "integer")],
          .jobj [("type", .jstr "string")]])]) "tup"
      = selfField [("items", .jarr [.jobj [("type", .jstr "integer")],
            .jobj [("type", .jstr "string")]])] "tup" ::
          (propsPart [("items", .jarr [.jobj [("type", .jstr "integer")],
            .jobj [("type", .jstr "string")]])] "tup" ++
            (([.jobj [("type", .jstr "integer")],
               .jobj [("type", .jstr "string")]] :
                List JVal).map (fun v => extractNodes v "tup")).flatten) :=
  ⟨ claim_C8_items_prefix.1 [("items", .jobj [("type", .jstr "string")])]
      "arr" [("type", .jstr "string")] rfl,
   claim_C8_items_prefix.2
      [("items", .jarr [.jobj [("type", .jstr "integer")],
        .jobj [("type", .jstr "string")]])] "tup"
      [.jobj [("type", .jstr "integer")], .jobj [("type", .jstr "string")]]
      rfl⟩

end LifCore

namespace LifCore

/-! ## Claim C10 -/

/-- Only `None` serialises to `null`. -/
theorem serializeForJson_notNull {v : PyVal} (h : v.isNone = false) :
    (serializeForJson v).isNull = false := by
  cases v <;> simp [serializeForJson, PyVal.isNone, JOut.isNull] at h ⊢

/-- No object entry of the serialised output of a dict-free value is bound to
`null` (strong induction on the value size). -/
theorem noNull_serialize : ∀ (n : Nat) (v : PyVal), sizeOf v ≤ n →
    noVDict v = true → noNullFields (serializeForJson v) = true := by
  intro n
  induction n with
  | zero =>
    intro v hv _
    exfalso
    cases v <;> simp at hv
  | succ n ih =>
    intro v hv hnd
    match v with
    | .vnone | .vbool _ | .vint _ | .vstr _ | .vdate _ | .venum _ =>
      simp [serializeForJson, noNullFields]
    | .vdict fs => simp [noVDict] at hnd
    | .vlist xs =>
      have hsz : sizeOf xs ≤ n := by
        have : sizeOf (PyVal.vlist xs) = 1 + sizeOf xs := by simp
        omega
      have hmemsz : ∀ x ∈ xs, sizeOf x ≤ n := fun x hx =>
        le_of_lt (lt_of_lt_of_le (List.sizeOf_lt_of_mem hx) hsz)
      have hnd' : noVDictList xs = true := by simpa [noVDict] using hnd
      show noNullFields (.oarr (serElems xs)) = true
      suffices hsuf : ∀ ys : List PyVal, (∀ y ∈ ys, sizeOf y ≤ n) →
          noVDictList ys = true →
          noNullFieldsList (serElems ys) = true by
        simpa [noNullFields] using hsuf xs hmemsz hnd'
      intro ys
      induction ys with
      | nil => intro _ _; rfl
      | cons y ys ihy =>
        intro hb hn
        rw [serElems, noNullFieldsList]
        rw [noVDictList] at hn
        simp only [Bool.and_eq_true] at hn ⊢
        exact ⟨ih y (hb y (List.mem_cons_self y ys)) hn.1,
          ihy (fun z hz => hb z (List.mem_cons_of_mem _ hz)) hn.2⟩
    | .vmodel fs =>
      have hsz : sizeOf fs ≤ n := by
        have : sizeOf (PyVal.vmodel fs) = 1 + sizeOf fs := by simp
        omega
      have hmemsz : ∀ kv ∈ fs, sizeOf (Prod.snd kv) ≤ n := by
        intro kv hkv
        have h1 := List.sizeOf_lt_of_mem hkv
        obtain ⟨k, v'⟩ := kv
        simp at h1 ⊢
        omega
      have hnd' : noVDictEntries fs = true := by simpa [noVDict] using hnd
      show noNullFields (.oobj (serModelFields fs)) = true
      suffices hsuf : ∀ gs : List (String × PyVal),
          (∀ kv ∈ gs, sizeOf (Prod.snd kv) ≤ n) →
          noVDictEntries gs = true →
          noNullFieldsEntries (serModelFields gs) = true by
        simpa [noNullFields] using hsuf fs hmemsz hnd'
      intro gs
      induction gs with
      | nil => intro _ _; rfl
      | cons kv gs ihg =>
        intro hb hn
        obtain ⟨k, v'⟩ := kv
        rw [noVDictEntries] at hn
        simp only [Bool.and_eq_true] at hn
        rw [serModelFields]
        by_cases hnone : v'.isNone
        · rw [if_pos hnone]
          exact ihg (fun z hz => hb z (List.mem_cons_of_mem _ hz)) hn.2
        · rw [if_neg hnone]
          rw [noNullFieldsEntries]
          simp only [Bool.and_eq_true]
          refine ⟨⟨?_, ?_⟩, ?_⟩
          · rw [serializeForJson_notNull (by simpa using hnone)]
            rfl
          · exact ih v' (hb (k, v') (List.mem_cons_self _ _)) hn.1
          · exact ihg (fun z hz => hb z (List.mem_cons_of_mem _ hz)) hn.2

/-- Dropping an explicit `None` field does not change the serialised model
output. -/
theorem serModelFields_drop_none (fs1 fs2 : List (String × PyVal))
    (k : String) :
    serModelFields (fs1 ++ (k, .vnone) :: fs2) = serModelFields (fs1 ++ fs2) := by
  induction fs1 with
  | nil => rfl
  | cons kv rest ih =>
    obtain ⟨k', v'⟩ := kv
    rw [List.cons_append, List.cons_append, serModelFields, serModelFields]
    by_cases hnone : v'.isNone
    · rw [if_pos hnone, if_pos hnone, ih]
    · rw [if_neg hnone, if_neg hnone, ih]

/-- C10: inputs carrying model-level serialisation (`model_dump` is present)
are normalised with `exclude_none`: the plain mapping forwarded to the
Backend has no object entry bound to `null` at any depth (for the dict-free
value shapes the compiled record instances take), and a field explicitly set
to `None` produces exactly the payload of the same model without that field —
indistinguishable from a field never supplied. -/
theorem claim_C10_exclude_none :
    (∀ m : List (String × PyVal), noVDict (.vmodel m) = true →
        noNullFields (serializeForJson (.vmodel m)) = true) ∧
    (∀ (fs1 fs2 : List (String × PyVal)) (k : String),
        pydanticInputsToDict (some (.vmodel (fs1 ++ (k, .vnone) :: fs2))) none
          = pydanticInputsToDict (some (.vmodel (fs1 ++ fs2))) none) := by
  constructor
  · intro m hm
    exact noNull_serialize (sizeOf (PyVal.vmodel m)) _ le_rfl hm
  · intro fs1 fs2 k
    have h : serializeForJson (.vmodel (fs1 ++ (k, .vnone) :: fs2))
        = serializeForJson (.vmodel (fs1 ++ fs2)) := by
      rw [serializeForJson, serializeForJson, serModelFields_drop_none]
    unfold pydanticInputsToDict
    have hm : ∀ a : PyVal, (some a).map serializeForJson
        = some (serializeForJson a) := fun _ => rfl
    rw [hm, hm, h]

/-- Witness for `claim_C10_exclude_none`: a concrete model instance with an
explicit `None` field and a nested model serialises without null entries, and
equals the serialisation of the instance without the `None` field. -/
theorem claim_C10_witness :
    noNullFields (serializeForJson (.vmodel
      [("name", .vstr "Ann"), ("age", .vnone),
       ("addr", .vmodel [("city", .vnone), ("zip", .vint 7)])])) = true ∧
    pydanticInputsToDict
        (some (.vmodel ([("name", PyVal.vstr "Ann")] ++
          ("age", PyVal.vnone) :: [("zip", PyVal.vint 7)]))) none
      = pydanticInputsToDict
          (some (.vmodel ([("name", PyVal.vstr "Ann")] ++
            [("zip", PyVal.vint 7)]))) none :=
  ⟨claim_C10_exclude_none.1
      [("name", .vstr "Ann"), ("age", .vnone),
       ("addr", .vmodel [("city", .vnone), ("zip", .vint 7)])] (by decide),
   claim_C10_exclude_none.2 [("name", .vstr "Ann")] [("zip", .vint 7)] "age"⟩

end LifCore

namespace LifCore

unseal pySplitRuns sub1 sub2 toCamelCaseAux pascalTokens buildModel buildFields

/-! ## Claim C1 -/

/-- Splitting on dots never yields the empty list. -/
theorem pySplitDotsAux_ne_nil : ∀ (cs acc : List Char),
    pySplitDotsAux cs acc ≠ [] := by
  intro cs
  induction cs with
  | nil => intro acc h; simp [pySplitDotsAux] at h
  | cons c cs ih =>
    intro acc
    by_cases hc : c = '.' <;> simp [pySplitDotsAux, hc] <;> exact ih _

/-- The head segment of a path is a key of the tree after inserting it. -/
theorem mem_keys_treeInsert_self (children : List (String × Tree))
    (p : String) (rest : List String) :
    p ∈ (treeInsert children (p :: rest)).map Prod.fst := by
  rw [treeInsert]
  exact mem_keys_dictInsert_iff.mpr (Or.inl rfl)

/-- Inserting a path preserves existing keys. -/
theorem mem_keys_treeInsert_mono {children : List (String × Tree)}
    {a : String} (parts : List String)
    (h : a ∈ children.map Prod.fst) :
    a ∈ (treeInsert children parts).map Prod.fst := by
  cases parts with
  | nil => simpa [treeInsert] using h
  | cons p rest =>
    rw [treeInsert]
    exact mem_keys_dictInsert_iff.mpr (Or.inr h)

/-- Folding the tree construction over a field list preserves keys. -/
theorem mem_keys_foldl_treeInsert_mono (l : List SchemaField)
    (t : List (String × Tree)) {a : String} (h : a ∈ t.map Prod.fst) :
    a ∈ (l.foldl (fun t sf => treeInsert t (pySplitDots sf.json_path))
        t).map Prod.fst := by
  induction l generalizing t with
  | nil => simpa using h
  | cons sf l ih =>
    exact ih _ (mem_keys_treeInsert_mono _ h)

/-- Every member field's first path segment is a key of the final tree. -/
theorem firstSeg_mem_keys (l : List SchemaField)
    (t : List (String × Tree)) (sf : SchemaField) (h : sf ∈ l) :
    (pySplitDots sf.json_path).headD ""
      ∈ (l.foldl (fun t sf => treeInsert t (pySplitDots sf.json_path))
          t).map Prod.fst := by
  induction l generalizing t with
  | nil => simp at h
  | cons a l ih =>
    rcases List.mem_cons.mp h with rfl | h
    · cases hsplit : pySplitDots sf.json_path with
      | nil => exact absurd hsplit (pySplitDotsAux_ne_nil _ _)
      | cons p rest =>
        simp only [List.foldl_cons, hsplit, List.headD_cons]
        exact mem_keys_foldl_treeInsert_mono l _
          (mem_keys_treeInsert_self t p rest)
    · exact ih _ h

/-- A list holding two distinct members has at least two elements. -/
theorem two_le_length_of_mem_ne {l : List α} {a b : α}
    (ha : a ∈ l) (hb : b ∈ l) (hne : a ≠ b) : 2 ≤ l.length := by
  match l with
  | [] => simp at ha
  | [x] =>
    rcases List.mem_singleton.mp ha with rfl
    rcases List.mem_singleton.mp hb with rfl
    exact absurd rfl hne
  | x :: y :: l =>
    simp only [List.length_cons]
    omega

/-- C1 counterexample: two queryable fields rooted at `zqone` and `zqtwo`
raise the configuration error, but the message is the fixed string
`"All xQueryable json_path values must share a common root"`, which names the
selection flag and contains neither conflicting root — refuting "the error
names the conflicting roots/paths". -/
theorem claim_C1_counterexample :
    buildDynamicModel
        [⟨"zqone.a", "", [("xQueryable", .b true)]⟩,
         ⟨"zqtwo.b", "", [("xQueryable", .b true)]⟩]
        (some "xQueryable") "Data model" false "" true
      = .error "All xQueryable json_path values must share a common root" ∧
    ¬ ("zqone".data <:+:
        "All xQueryable json_path values must share a common root".data) ∧
    ¬ ("zqtwo".data <:+:
        "All xQueryable json_path values must share a common root".data) :=
  ⟨by rfl, by decide, by decide⟩

/-- C1 (amended): whenever two participating fields have distinct top-level
path segments, `build_dynamic_model` raises the configuration error; the
error message is the fixed string naming the selection attribute flag
(`"All <flag> json_path values must share a common root"`), not the
conflicting roots or paths. -/
theorem claim_C1_multi_root_error :
    ∀ (fields : List SchemaField) (flag : Option String) (doc : String)
      (ax : Bool) (suf : String) (allOpt : Bool) (sf1 sf2 : SchemaField),
      sf1 ∈ fields → sf2 ∈ fields →
      participating flag sf1 = true → participating flag sf2 = true →
      (pySplitDots sf1.json_path).headD ""
        ≠ (pySplitDots sf2.json_path).headD "" →
      buildDynamicModel fields flag doc ax suf allOpt
        = .error ("All " ++ flagName flag ++
            " json_path values must share a common root") := by
  intro fields flag doc ax suf allOpt sf1 sf2 hm1 hm2 hp1 hp2 hne
  have hf1 : sf1 ∈ fields.filter (participating flag) :=
    List.mem_filter.mpr ⟨hm1, hp1⟩
  have hf2 : sf2 ∈ fields.filter (participating flag) :=
    List.mem_filter.mpr ⟨hm2, hp2⟩
  have hk1 := firstSeg_mem_keys (fields.filter (participating flag)) [] sf1 hf1
  have hk2 := firstSeg_mem_keys (fields.filter (participating flag)) [] sf2 hf2
  unfold buildDynamicModel
  simp only []
  revert hk1 hk2
  generalize ((fields.filter (participating flag)).foldl
      (fun t sf => treeInsert t (pySplitDots sf.json_path)) []) = T
  intro hk1 hk2
  have hlen : 2 ≤ T.length := by
    have := two_le_length_of_mem_ne hk1 hk2 hne
    simpa using this
  match T, hlen with
  | x :: y :: l, _ => rfl

end LifCore

namespace LifCore

/-- Witness for `claim_C1_multi_root_error`: the two-root field list produces
exactly the fixed flag-naming error message. -/
theorem claim_C1_witness :
    buildDynamicModel
        [⟨"zqone.a", "", [("xQueryable", .b true)]⟩,
         ⟨"zqtwo.b", "", [("xQueryable", .b true)]⟩]
        (some "xQueryable") "Data model" false "" true
      = .error ("All " ++ flagName (some "xQueryable") ++
          " json_path values must share a common root") :=
  claim_C1_multi_root_error
    [⟨"zqone.a", "", [("xQueryable", .b true)]⟩,
     ⟨"zqtwo.b", "", [("xQueryable", .b true)]⟩]
    (some "xQueryable") "Data model" false "" true
    ⟨"zqone.a", "", [("xQueryable", .b true)]⟩
    ⟨"zqtwo.b", "", [("xQueryable", .b true)]⟩
    (List.mem_cons_self _ _)
    (List.mem_cons_of_mem _ (List.mem_cons_self _ _))
    rfl rfl (by decide)

end LifCore

namespace LifCore

/-! ## Claim C6 -/

/-- Zeta-reduced equation of `buildFields` on a branch child. -/
theorem buildFields_cons_branch (ctx : BuildCtx) (key : String)
    (s : List (String × Tree)) (rest : List (String × Tree))
    (path : List String) (hse : ¬ s.isEmpty = true) :
    buildFields ctx ((key, Tree.node s) :: rest) path =
      (match (buildModel ctx s (path ++ [key])).1 with
       | some cm =>
         (PyField.mk key
            (branchFieldType ctx.allOptional
              (match pathGet ctx.leafMap (path ++ [key]) with
               | some sf => isYes (sf.attrGetD "array" (.s "No"))
               | none => false) cm) ctx.allOptional ""
            :: (buildFields ctx rest path).1,
          (buildModel ctx s (path ++ [key])).2
            ++ (buildFields ctx rest path).2)
       | none =>
         ((buildFields ctx rest path).1,
          (buildModel ctx s (path ++ [key])).2
            ++ (buildFields ctx rest path).2)) := by
  rw [buildFields, if_neg hse]

/-- Zeta-reduced equation of `buildFields` on a leaf child. -/
theorem buildFields_cons_leaf (ctx : BuildCtx) (key : String)
    (rest : List (String × Tree)) (path : List String) :
    buildFields ctx ((key, Tree.node []) :: rest) path =
      (match pathGet ctx.leafMap (path ++ [key]) with
       | some sf =>
         (PyField.mk key (leafFieldType ctx sf key) ctx.allOptional
            sf.description :: (buildFields ctx rest path).1,
          (buildFields ctx rest path).2)
       | none => buildFields ctx rest path) := by
  rw [buildFields]
  rfl

/-- Zeta-reduced equation of `buildModel`. -/
theorem buildModel_eq (ctx : BuildCtx) (sub : List (String × Tree))
    (path : List String) :
    buildModel ctx sub path =
      (if (buildFields ctx sub path).1.isEmpty then
        (none, (buildFields ctx sub path).2)
       else
        (some (PyModel.mk (buildClassName ctx (stripRoot ctx path))
            (buildFields ctx sub path).1 ctx.allowExtra
            (ctx.modelDoc ++ " for `"
              ++ buildClassName ctx (stripRoot ctx path) ++ "`.")),
         (buildFields ctx sub path).2
           ++ [(buildUniqueName ctx (pathGet ctx.leafMap path)
                  (stripRoot ctx path)
                  (buildClassName ctx (stripRoot ctx path)),
               PyModel.mk (buildClassName ctx (stripRoot ctx path))
                 (buildFields ctx sub path).1 ctx.allowExtra
                 (ctx.modelDoc ++ " for `"
                   ++ buildClassName ctx (stripRoot ctx path) ++ "`."))])) := by
  rw [buildModel]

/-- Every field annotation emitted by `_build_model` — and hence every field
of every model it records — carries a `None` default exactly when
`all_optional` is set (strong induction on the subtree size, covering the
mutual recursion of `buildModel` and `buildFields`). -/
theorem buildFields_defaults (ctx : BuildCtx) :
    ∀ (n : Nat) (sub : List (String × Tree)) (path : List String),
      sizeOf sub ≤ n →
      ((∀ f ∈ (buildFields ctx sub path).1,
          f.hasDefault = ctx.allOptional) ∧
       ∀ kv ∈ (buildFields ctx sub path).2, ∀ f ∈ kv.2.fields,
         f.hasDefault = ctx.allOptional) ∧
      ((∀ m, (buildModel ctx sub path).1 = some m →
          ∀ f ∈ m.fields, f.hasDefault = ctx.allOptional) ∧
       ∀ kv ∈ (buildModel ctx sub path).2, ∀ f ∈ kv.2.fields,
         f.hasDefault = ctx.allOptional) := by
  intro n
  induction n with
  | zero =>
    intro sub path hsz
    exfalso
    cases sub <;> simp at hsz
  | succ n ih =>
    intro sub path hsz
    have hA : (∀ f ∈ (buildFields ctx sub path).1,
        f.hasDefault = ctx.allOptional) ∧
        ∀ kv ∈ (buildFields ctx sub path).2, ∀ f ∈ kv.2.fields,
          f.hasDefault = ctx.allOptional := by
      match sub, hsz with
      | [], _ =>
        rw [buildFields]
        simp
      | (key, Tree.node s) :: rest, hsz =>
        have hrest : sizeOf rest ≤ n := by
          simp at hsz
          omega
        have hs : sizeOf s ≤ n := by
          simp at hsz
          omega
        have ihr := ih rest path hrest
        have ihs := ih s (path ++ [key]) hs
        by_cases hse : s.isEmpty
        · have hsnil : s = [] := List.isEmpty_iff.mp hse
          subst hsnil
          rw [buildFields_cons_leaf]
          cases hleaf : pathGet ctx.leafMap (path ++ [key]) with
          | some sf =>
            refine ⟨?_, ihr.1.2⟩
            intro f hf
            rcases List.mem_cons.mp hf with rfl | hf
            · rfl
            · exact ihr.1.1 f hf
          | none => exact ihr.1
        · rw [buildFields_cons_branch ctx key s rest path hse]
          cases hc : (buildModel ctx s (path ++ [key])).1 with
          | some cm =>
            refine ⟨?_, ?_⟩
            · intro f hf
              rcases List.mem_cons.mp hf with rfl | hf
              · rfl
              · exact ihr.1.1 f hf
            · intro kv hkv
              rcases List.mem_append.mp hkv with hkv | hkv
              · exact ihs.2.2 kv hkv
              · exact ihr.1.2 kv hkv
          | none =>
            refine ⟨ihr.1.1, ?_⟩
            intro kv hkv
            rcases List.mem_append.mp hkv with hkv | hkv
            · exact ihs.2.2 kv hkv
            · exact ihr.1.2 kv hkv
    refine ⟨hA, ?_, ?_⟩
    · intro m hm f hf
      rw [buildModel_eq] at hm
      by_cases he : (buildFields ctx sub path).1.isEmpty
      · rw [if_pos he] at hm
        simp at hm
      · rw [if_neg he] at hm
        simp at hm
        rw [← hm] at hf
        exact hA.1 f hf
    · intro kv hkv f hf
      rw [buildModel_eq] at hkv
      by_cases he : (buildFields ctx sub path).1.isEmpty
      · rw [if_pos he] at hkv
        exact hA.2 kv hkv f hf
      · rw [if_neg he] at hkv
        simp at hkv
        rcases hkv with hkv | hkv
        · exact hA.2 kv hkv f hf
        · rw [hkv] at hf
          exact hA.1 f hf

end LifCore

namespace LifCore

unseal buildModel buildFields

/-- Members of a dict built by repeated insertion come from the insertions or
the initial dict. -/
theorem mem_foldl_dictInsert {l init : List (String × α)} {x : String × α}
    (h : x ∈ l.foldl (fun d kv => dictInsert d kv.1 kv.2) init) :
    x ∈ init ∨ x ∈ l := by
  induction l generalizing init with
  | nil => exact Or.inl (by simpa using h)
  | cons kv l ih =>
    rcases ih (by simpa using h) with h' | h'
    · rcases mem_dictInsert h' with h'' | h''
      · exact Or.inr (by simp [h''])
      · exact Or.inl h''
    · exact Or.inr (List.mem_cons_of_mem _ h')

/-- All fields of all models in a successful `build_dynamic_model` result
have a default exactly when `all_optional` is set. -/
theorem buildDynamicModel_defaults
    {fields : List SchemaField} {flag : Option String} {doc : String}
    {ax : Bool} {suf : String} {allOpt : Bool}
    {ms : List (String × PyModel)}
    (hok : buildDynamicModel fields flag doc ax suf allOpt = .ok ms) :
    ∀ kv ∈ ms, ∀ f ∈ kv.2.fields, f.hasDefault = allOpt := by
  unfold buildDynamicModel at hok
  simp only [] at hok
  revert hok
  generalize ((fields.filter (participating flag)).foldl
      (fun t sf => treeInsert t (pySplitDots sf.json_path)) []) = T
  intro hok
  rcases T with _ | ⟨⟨r, rsub⟩, _ | ⟨e₂, l⟩⟩
  · cases hok
    intro kv hkv
    simp at hkv
  · obtain ⟨children⟩ := rsub
    simp only [Tree.children] at hok
    set ctx : BuildCtx :=
      ⟨r, suf, doc, ax, allOpt,
        (fields.filter (participating flag)).foldl
          (fun m sf => pathInsert m (pySplitDots sf.json_path) sf) []⟩
      with hctx
    have hgood := buildFields_defaults ctx (sizeOf children) children [r]
      le_rfl
    cases hbm : buildModel ctx children [r] with
    | mk res ins =>
      rw [hbm] at hok
      cases res with
      | none =>
        cases hok
        intro kv hkv
        simp at hkv
      | some inner =>
        cases hok
        intro kv hkv f hf
        have hinner : ∀ g ∈ inner.fields, g.hasDefault = allOpt := by
          intro g hg
          have h1 : (buildModel ctx children [r]).1 = some inner := by
            rw [hbm]
          exact hgood.2.1 inner h1 g hg
        rcases mem_foldl_dictInsert hkv with h' | h'
        · simp at h'
        rcases List.mem_append.mp h' with h' | h'
        · have h2 : (buildModel ctx children [r]).2 = ins := by
            rw [hbm]
          exact hgood.2.2 kv (h2 ▸ h') f hf
        · rcases List.mem_cons.mp h' with rfl | h'
          · exact hinner f hf
          · rcases List.mem_cons.mp h' with rfl | h'
            · rcases List.mem_singleton.mp hf with rfl
              rfl
            · simp at h'
  · exact absurd hok (by simp)

/-- C6: every record compiled with `all_optional=True` is constructible with
zero arguments (every field carries a `None` default), and every record
compiled with `all_optional=False` raises a validation error on construction
whenever any field — all of which lack defaults — is omitted from the
supplied keyword names. -/
theorem claim_C6_optionality :
    ∀ (fields : List SchemaField) (flag : Option String) (doc : String)
      (ax : Bool) (suf : String) (allOpt : Bool)
      (ms : List (String × PyModel)),
      buildDynamicModel fields flag doc ax suf allOpt = .ok ms →
      ∀ kv ∈ ms,
        (allOpt = true → constructOk kv.2 [] = true) ∧
        (allOpt = false → ∀ f ∈ kv.2.fields, ∀ provided : List String,
            f.name ∉ provided → constructOk kv.2 provided = false) := by
  intro fields flag doc ax suf allOpt ms hok kv hkv
  have hfd := buildDynamicModel_defaults hok kv hkv
  constructor
  · intro ha
    subst ha
    unfold constructOk
    rw [List.all_eq_true]
    intro f hf
    rw [hfd f hf]
    rfl
  · intro ha f hf provided hnp
    subst ha
    unfold constructOk
    rw [List.all_eq_false]
    refine ⟨f, hf, ?_⟩
    rw [hfd f hf]
    simp
    intro hc
    exact absurd (by simpa using hc) hnp

end LifCore

namespace LifCore

unseal buildModel buildFields pySplitRuns sub1 sub2 toCamelCaseAux pascalTokens

set_option maxRecDepth 100000

/-- C6 witness: the concrete one-field schema `person.name` compiled with
`all_optional=True` yields a root record constructible with zero arguments,
and with `all_optional=False` a root record that fails validation when
`name` is omitted. -/
theorem claim_C6_witness :
    constructOk (PyModel.mk "Person"
        [PyField.mk "name" (PyType.popt PyType.pstr) true "the name"]
        false "Data model for `Person`.") [] = true ∧
    constructOk (PyModel.mk "Person"
        [PyField.mk "name" PyType.pstr false "the name"]
        false "Data model for `Person`.") [] = false := by
  constructor
  · exact (claim_C6_optionality
      [⟨"person.name", "the name", [("xQueryable", AttrVal.s "Yes")]⟩]
      (some "xQueryable") "Data model" false "" true
      [("Person", PyModel.mk "Person"
          [PyField.mk "name" (PyType.popt PyType.pstr) true "the name"]
          false "Data model for `Person`."),
       ("person", PyModel.mk "Person"
          [PyField.mk "name" (PyType.popt PyType.pstr) true "the name"]
          false "Data model for `Person`."),
       ("person_wrapper", PyModel.mk "Person"
          [PyField.mk "person"
            (PyType.plist (PyType.pmodel (PyModel.mk "Person"
              [PyField.mk "name" (PyType.popt PyType.pstr) true "the name"]
              false "Data model for `Person`."))) true ""]
          false "Top-level wrapper with `person` field.")]
      rfl
      ("Person", PyModel.mk "Person"
          [PyField.mk "name" (PyType.popt PyType.pstr) true "the name"]
          false "Data model for `Person`.")
      (by simp)).1 rfl
  · exact (claim_C6_optionality
      [⟨"person.name", "the name", [("xQueryable", AttrVal.s "Yes")]⟩]
      (some "xQueryable") "Data model" false "" false
      [("Person", PyModel.mk "Person"
          [PyField.mk "name" PyType.pstr false "the name"]
          false "Data model for `Person`."),
       ("person", PyModel.mk "Person"
          [PyField.mk "name" PyType.pstr false "the name"]
          false "Data model for `Person`."),
       ("person_wrapper", PyModel.mk "Person"
          [PyField.mk "person"
            (PyType.plist (PyType.pmodel (PyModel.mk "Person"
              [PyField.mk "name" PyType.pstr false "the name"]
              false "Data model for `Person`."))) false ""]
          false "Top-level wrapper with `person` field.")]
      rfl
      ("Person", PyModel.mk "Person"
          [PyField.mk "name" PyType.pstr false "the name"]
          false "Data model for `Person`.")
      (by simp)).2 rfl
      (PyField.mk "name" PyType.pstr false "the name")
      (by simp [PyModel.fields]) [] (by simp)

end LifCore

namespace LifCore

unseal buildModel buildFields pySplitRuns sub1 sub2 toCamelCaseAux pascalTokens

set_option maxRecDepth 100000

/-- Keys of a dict built by repeated insertion into a duplicate-free dict
stay duplicate-free. -/
theorem nodup_keys_foldl_dictInsert {l init : List (String × α)}
    (h : (init.map Prod.fst).Nodup) :
    (((l.foldl (fun d kv => dictInsert d kv.1 kv.2) init)).map Prod.fst).Nodup := by
  induction l generalizing init with
  | nil => simpa using h
  | cons kv l ih => exact ih (nodup_keys_dictInsert _ _ h)

/-- C3 counterexample: (a) the wrapper key uses the root segment verbatim,
not lower-cased — root `personData` produces key `personData_wrapper` and no
`persondata_wrapper` entry; (b) a non-empty participating field set whose
sole path is the bare root compiles to the empty mapping, with no wrapper
entry at all. -/
theorem claim_C3_counterexample :
    ((buildDynamicModel
        [⟨"personData.x", "the x", [("xQueryable", AttrVal.s "Yes")]⟩]
        (some "xQueryable") "Data model" false "" true).toOption.map
      (fun ms => ((assocGet ms "personData_wrapper").isSome,
                  (assocGet ms "persondata_wrapper").isSome))
      = some (true, false)) ∧
    ([(⟨"p", "", [("xQueryable", AttrVal.s "Yes")]⟩ : SchemaField)].filter
        (participating (some "xQueryable")) ≠ []) ∧
    (buildDynamicModel [⟨"p", "", [("xQueryable", AttrVal.s "Yes")]⟩]
        (some "xQueryable") "Data model" false "" true = .ok []) := by
  refine ⟨rfl, by decide, rfl⟩

/-- C3 (amended): whenever `build_dynamic_model` succeeds with a non-empty
mapping, there is a root key `r` mapped to the root record and exactly one
wrapper entry, keyed `r ++ "_wrapper"` with the root segment verbatim,
distinct from the root key; the wrapper's sole field is a list of the root
record regardless of the root's own declared array-ness (the caller hardwires
`is_array=True`). -/
theorem claim_C3_wrapper_emission
    {fields : List SchemaField} {flag : Option String} {doc : String}
    {ax : Bool} {suf : String} {allOpt : Bool}
    {ms : List (String × PyModel)}
    (hok : buildDynamicModel fields flag doc ax suf allOpt = .ok ms)
    (hne : ms ≠ []) :
    ∃ r inner w,
      assocGet ms r = some inner ∧
      assocGet ms (r ++ "_wrapper") = some w ∧
      w.fields = [PyField.mk r (PyType.plist (PyType.pmodel inner)) allOpt ""] ∧
      r ++ "_wrapper" ≠ r ∧
      (ms.map Prod.fst).count (r ++ "_wrapper") = 1 := by
  unfold buildDynamicModel at hok
  simp only [] at hok
  revert hok
  generalize ((fields.filter (participating flag)).foldl
      (fun t sf => treeInsert t (pySplitDots sf.json_path)) []) = T
  intro hok
  rcases T with _ | ⟨⟨r, rsub⟩, _ | ⟨e₂, l⟩⟩
  · cases hok
    exact absurd rfl hne
  · obtain ⟨children⟩ := rsub
    simp only [Tree.children] at hok
    set ctx : BuildCtx :=
      ⟨r, suf, doc, ax, allOpt,
        (fields.filter (participating flag)).foldl
          (fun m sf => pathInsert m (pySplitDots sf.json_path) sf) []⟩
      with hctx
    cases hbm : buildModel ctx children [r] with
    | mk res ins =>
      rw [hbm] at hok
      cases res with
      | none =>
        cases hok
        exact absurd rfl hne
      | some inner =>
        cases hok
        have hwne : r ++ "_wrapper" ≠ r := by
          intro h
          have hlen := congrArg String.length h
          have h8 : ("_wrapper" : String).length = 8 := rfl
          rw [String.length_append, h8] at hlen
          omega
        have hms : (ins ++ [(r, inner),
              (r ++ "_wrapper", wrapRoot ctx r inner true)]).foldl
              (fun d kv => dictInsert d kv.1 kv.2) []
            = dictInsert
                (dictInsert (ins.foldl (fun d kv => dictInsert d kv.1 kv.2) [])
                  r inner)
                (r ++ "_wrapper") (wrapRoot ctx r inner true) := by
          rw [List.foldl_append]
          rfl
        refine ⟨r, inner, wrapRoot ctx r inner true, ?_, ?_, ?_, hwne, ?_⟩
        · rw [hms, assocGet_dictInsert_ne _ _ (fun h => hwne h.symm),
            assocGet_dictInsert_self]
        · rw [hms, assocGet_dictInsert_self]
        · rfl
        · have hnd := @nodup_keys_foldl_dictInsert PyModel
            (ins ++ [(r, inner), (r ++ "_wrapper", wrapRoot ctx r inner true)])
            [] (by simp)
          have hget : assocGet ((ins ++ [(r, inner),
                (r ++ "_wrapper", wrapRoot ctx r inner true)]).foldl
                (fun d kv => dictInsert d kv.1 kv.2) []) (r ++ "_wrapper")
              = some (wrapRoot ctx r inner true) := by
            rw [hms, assocGet_dictInsert_self]
          have hmem := List.mem_map_of_mem Prod.fst (assocGet_mem hget)
          exact List.count_eq_one_of_mem hnd hmem
  · exact absurd hok (by simp)

end LifCore

namespace LifCore

unseal buildModel buildFields pySplitRuns sub1 sub2 toCamelCaseAux pascalTokens

set_option maxRecDepth 100000

/-- C3 witness: on the one-field schema `personData.x` the compiled mapping
carries the root record under a root key and exactly one wrapper entry whose
sole field is a list of the root record. -/
theorem claim_C3_witness :
    ∃ r inner w,
      assocGet
        [("PersonData", PyModel.mk "PersonData"
            [PyField.mk "x" (PyType.popt PyType.pstr) true "the x"]
            false "Data model for `PersonData`."),
         ("personData", PyModel.mk "PersonData"
            [PyField.mk "x" (PyType.popt PyType.pstr) true "the x"]
            false "Data model for `PersonData`."),
         ("personData_wrapper", PyModel.mk "Persondata"
            [PyField.mk "personData"
              (PyType.plist (PyType.pmodel (PyModel.mk "PersonData"
                [PyField.mk "x" (PyType.popt PyType.pstr) true "the x"]
                false "Data model for `PersonData`.")))
              true ""]
            false "Top-level wrapper with `personData` field.")] r
        = some inner ∧
      assocGet
        [("PersonData", PyModel.mk "PersonData"
            [PyField.mk "x" (PyType.popt PyType.pstr) true "the x"]
            false "Data model for `PersonData`."),
         ("personData", PyModel.mk "PersonData"
            [PyField.mk "x" (PyType.popt PyType.pstr) true "the x"]
            false "Data model for `PersonData`."),
         ("personData_wrapper", PyModel.mk "Persondata"
            [PyField.mk "personData"
              (PyType.plist (PyType.pmodel (PyModel.mk "PersonData"
                [PyField.mk "x" (PyType.popt PyType.pstr) true "the x"]
                false "Data model for `PersonData`.")))
              true ""]
            false "Top-level wrapper with `personData` field.")]
        (r ++ "_wrapper") = some w ∧
      w.fields = [PyField.mk r (PyType.plist (PyType.pmodel inner)) true ""] ∧
      r ++ "_wrapper" ≠ r ∧
      (([("PersonData", PyModel.mk "PersonData"
            [PyField.mk "x" (PyType.popt PyType.pstr) true "the x"]
            false "Data model for `PersonData`."),
         ("personData", PyModel.mk "PersonData"
            [PyField.mk "x" (PyType.popt PyType.pstr) true "the x"]
            false "Data model for `PersonData`."),
         ("personData_wrapper", PyModel.mk "Persondata"
            [PyField.mk "personData"
              (PyType.plist (PyType.pmodel (PyModel.mk "PersonData"
                [PyField.mk "x" (PyType.popt PyType.pstr) true "the x"]
                false "Data model for `PersonData`.")))
              true ""]
            false "Top-level wrapper with `personData` field.")].map
          Prod.fst).count (r ++ "_wrapper")) = 1 :=
  @claim_C3_wrapper_emission
    [⟨"personData.x", "the x", [("xQueryable", AttrVal.s "Yes")]⟩]
    (some "xQueryable") "Data model" false "" true
    [("PersonData", PyModel.mk "PersonData"
        [PyField.mk "x" (PyType.popt PyType.pstr) true "the x"]
        false "Data model for `PersonData`."),
     ("personData", PyModel.mk "PersonData"
        [PyField.mk "x" (PyType.popt PyType.pstr) true "the x"]
        false "Data model for `PersonData`."),
     ("personData_wrapper", PyModel.mk "Persondata"
        [PyField.mk "personData"
          (PyType.plist (PyType.pmodel (PyModel.mk "PersonData"
            [PyField.mk "x" (PyType.popt PyType.pstr) true "the x"]
            false "Data model for `PersonData`.")))
          true ""]
        false "Top-level wrapper with `personData` field.")]
    rfl (by simp)

end LifCore
